import Mathlib

/-!
# Verification of the Betfair Exchange Hi-Lo probability engine (`src/prob.c`)

This file shallowly embeds the probability engine of `prob.c` and settles the
frozen claims about it.

Two embeddings are given:

* a **total** embedding (`matrixRow`, `calculatePermutations`,
  `internalProbabilities`, `calculateProbabilities`, ...) in which C `int`/`long`
  values are modelled as `ℕ` (every value the program stores is a non-negative
  count; all C subtractions happening inside the preconditions of the theorems
  below are non-negative, so truncated `ℕ` subtraction agrees with C `int`
  subtraction there) and the exact GMP rationals (`mpq_t`) are modelled as `ℚ`;

* an **instrumented** embedding (suffix `M`, e.g. `calculateProbabilitiesM`)
  in which every C array read/write is bounds-checked (`listGetM` / `listSetM`)
  and the whole computation runs in the `Option` monad: an access outside the
  bounds of the array the C code allocated yields `none`, exactly like running
  the C code under an address sanitizer.

A third group of definitions (`deck`, `allDeals`, `allCorrect`, ...) is a
brute-force model of the game itself written from the specification's words
(labeled cards, exhaustive enumeration of ordered deals, the majority-rule
predictor simulated on actual card values); it is used as the oracle for the
refinement claim.
-/

namespace HiLo

/-- Default-0 array read used by the total embedding (all reads proved in
bounds are unaffected by the default). -/
def rowGet (row : List ℕ) (i : ℕ) : ℕ := row.getD i 0

/-- `getLengthOfProbabilities` from prob.c: `size - 1`. -/
def getLengthOfProbabilities (size : ℕ) : ℕ := size - 1

/-- `getLengthOfPermutations` from prob.c: `size - 2`. -/
def getLengthOfPermutations (size : ℕ) : ℕ := size - 2

/-- `getNumberCardsLeftAfterDealing` from prob.c: `size - (stage + 1)`. -/
def getNumberCardsLeftAfterDealing (size stage : ℕ) : ℕ := size - (stage + 1)

/-- `numberFailingCards` from prob.c:
`numberHigher = (numberCardsLeft - numberLower) - 1;
 return numberHigher >= numberLower ? numberLower : numberHigher`. -/
def numberFailingCards (numberCardsLeft numberLower : ℕ) : ℕ :=
  let numberHigher := (numberCardsLeft - numberLower) - 1
  if numberHigher ≥ numberLower then numberLower else numberHigher

/-- The `(k, l)` computed by `initialiseFirstStage` in prob.c. -/
def firstStageKL (size numberLower : ℕ) : ℕ × ℕ :=
  let numberHigher := size - numberLower
  if numberHigher ≥ numberLower then (numberLower, size) else (0, numberLower)

/-- `initialiseFirstStage` from prob.c: row 0 of the matrix (allocated length
`size`, zero initialised by `calloc`) with 1 written at each `i ∈ [k, l)`. -/
def initialiseFirstStage (size numberLower : ℕ) : List ℕ :=
  let kl := firstStageKL size numberLower
  (List.range size).map fun i => if kl.1 ≤ i ∧ i < kl.2 then 1 else 0

/-- The `(k, l)` case split of `getNumberPathsLeadingTo` in prob.c. -/
def pathKL (numberCardsLeftBeforeDealing limit numberLower : ℕ) : ℕ × ℕ :=
  if numberCardsLeftBeforeDealing % 2 = 0 then
    if numberLower ≤ limit then (numberLower + 1, limit + 1)
    else (limit + 1, numberLower + 1)
  else
    if numberLower < limit then (numberLower + 1, limit)
    else if numberLower = limit then (limit, limit + 1)
    else (limit, numberLower + 1)

/-- `getNumberPathsLeadingTo` from prob.c: sum of the previous row over
`[0, k)` (first C loop) plus `[l, numberCardsLeftBeforeDealing]` (second C
loop, written as `l + j` for the `numberCardsLeftBeforeDealing + 1 - l`
iterations). -/
def getNumberPathsLeadingTo (prevRow : List ℕ) (size stage numberLower : ℕ) : ℕ :=
  let previousStage := stage - 1
  let numberCardsLeftBeforeDealing := getNumberCardsLeftAfterDealing size previousStage
  let limit := (numberCardsLeftBeforeDealing + 1) / 2
  let kl := pathKL numberCardsLeftBeforeDealing limit numberLower
  ((List.range kl.1).map fun i => rowGet prevRow i).sum +
    ((List.range (numberCardsLeftBeforeDealing + 1 - kl.2)).map
      fun j => rowGet prevRow (kl.2 + j)).sum

/-- `initialiseStage` from prob.c: the row for `stage ≥ 1`, entry `i` for
`0 ≤ i ≤ getNumberCardsLeftAfterDealing size stage`, each computed from the
previous row by `getNumberPathsLeadingTo`. -/
def initialiseStage (prevRow : List ℕ) (size stage : ℕ) : List ℕ :=
  (List.range (getNumberCardsLeftAfterDealing size stage + 1)).map fun i =>
    getNumberPathsLeadingTo prevRow size stage i

/-- Row `stage` of the path-count matrix: row 0 is `initialiseFirstStage`,
row `stage ≥ 1` is `initialiseStage` applied to the previous row. -/
def matrixRow (size numberLower : ℕ) : ℕ → List ℕ
  | 0 => initialiseFirstStage size numberLower
  | stage + 1 => initialiseStage (matrixRow size numberLower stage) size (stage + 1)

/-- `calculateMatrix` from prob.c: rows `0 .. size - 2` (the matrix allocated
by `createMatrix` has `size - 1` rows). -/
def calculateMatrix (size numberLower : ℕ) : List (List ℕ) :=
  (List.range (size - 1)).map (matrixRow size numberLower)

/-- Entry `i` of the permutation table:
`permutations[0] = size * (size - 1)`;
`permutations[i] = permutations[i - 1] * ((size - i) - 1)`. -/
def permEntry (size : ℕ) : ℕ → ℕ
  | 0 => size * (size - 1)
  | i + 1 => permEntry size i * ((size - (i + 1)) - 1)

/-- `calculatePermutations` from prob.c: the table of length
`getLengthOfPermutations size`. -/
def calculatePermutations (size : ℕ) : List ℕ :=
  (List.range (getLengthOfPermutations size)).map (permEntry size)

/-- `getNumberShuffles` from prob.c: `permutations[lengthOfPermutations - 1]`. -/
def getNumberShuffles (permutations : List ℕ) (size : ℕ) : ℕ :=
  rowGet permutations (getLengthOfPermutations size - 1)

/-- The `sum` computed by the inner loop of `calculateInitialProbabilities`
for outcome `n`: `Σ_lc matrix[n][lc] * numberFailingCards(size - n, lc)`. -/
def failSum (size numberLower n : ℕ) : ℕ :=
  ((List.range (size - n)).map fun lc =>
    rowGet (matrixRow size numberLower n) lc * numberFailingCards (size - n) lc).sum

/-- `probabilities[n]` as set by `calculateInitialProbabilities` in prob.c
(`mpq_set_si(probabilities[n], sum, permutations[n])` followed by
`mpq_canonicalize`): the exact rational `sum / permutations[n]`. -/
def initialProbability (size numberLower n : ℕ) : ℚ :=
  (failSum size numberLower n : ℚ) / (rowGet (calculatePermutations size) n : ℚ)

/-- The final probability set by `calculateFinalProbability` in prob.c:
`(matrix[size-2][0] + matrix[size-2][1]) / numberShuffles`. -/
def finalProbability (size numberLower : ℕ) : ℚ :=
  ((rowGet (matrixRow size numberLower (size - 2)) 0 +
      rowGet (matrixRow size numberLower (size - 2)) 1 : ℕ) : ℚ) /
    (getNumberShuffles (calculatePermutations size) size : ℚ)

/-- The probability vector after `calculateInternalProbabilities` in prob.c:
entries `0 .. size - 3` are the per-stage fail probabilities and entry
`size - 2` (the last) is the final probability. -/
def internalProbabilities (size numberLower : ℕ) : List ℚ :=
  (List.range (getLengthOfProbabilities size)).map fun n =>
    if n = getLengthOfProbabilities size - 1 then finalProbability size numberLower
    else initialProbability size numberLower n

/-- `accumulateProbabilities` from prob.c. The C loop walks from the last
index down, adding to `probabilities[n]` the running sum of the *original*
values of all later entries; its net effect is
`result[n] = original[n] + Σ_{m > n} original[m]`, which is this recursion. -/
def accumulateProbabilities : List ℚ → List ℚ
  | [] => []
  | p :: rest => (p + rest.sum) :: accumulateProbabilities rest

/-- `convertToNumeratorsAndDenominators` from prob.c: each canonical rational
is exported as its (numerator, denominator) pair of unsigned integers. -/
def convertToNumeratorsAndDenominators (probabilities : List ℚ) : List (ℕ × ℕ) :=
  probabilities.map fun q => (q.num.toNat, q.den)

/-- The accumulated (cumulative) probability vector produced inside
`calculateProbabilities`. -/
def resultVector (size numberLower : ℕ) : List ℚ :=
  accumulateProbabilities (internalProbabilities size numberLower)

/-- `calculateProbabilities` from prob.c (total embedding): the exported list
of (numerator, denominator) pairs. -/
def calculateProbabilities (size numberLower : ℕ) : List (ℕ × ℕ) :=
  convertToNumeratorsAndDenominators (resultVector size numberLower)

/-! ## Instrumented embedding: every array access is bounds checked

Each C array read/write goes through `listGetM` / `listSetM`, which return
`none` when the index lies outside `[0, length)` of the array the C code
allocated (indices are `ℤ` so that negative C index expressions such as
`lengthOfPermutations - 1` at `size = 2` are modelled exactly). The whole
computation runs in the `Option` monad, so `none` means the C code performed
an out-of-bounds access. -/

/-- Bounds-checked array read. -/
def listGetM {α : Type} (xs : List α) (i : ℤ) : Option α :=
  if h : 0 ≤ i ∧ i.toNat < xs.length then some (xs.get ⟨i.toNat, h.2⟩) else none

/-- Bounds-checked array write. -/
def listSetM {α : Type} (xs : List α) (i : ℤ) (v : α) : Option (List α) :=
  if 0 ≤ i ∧ i.toNat < xs.length then some (xs.set i.toNat v) else none

/-- `createMatrix` from prob.c: `size - 1` zeroed rows, row `i` of length
`size - i`. -/
def createMatrix (size : ℕ) : List (List ℕ) :=
  (List.range (size - 1)).map fun i => List.replicate (size - i) 0

/-- `createPermutations` from prob.c: `getLengthOfPermutations size` zeroed
entries. -/
def createPermutations (size : ℕ) : List ℕ :=
  List.replicate (getLengthOfPermutations size) 0

/-- `createProbabilities` from prob.c: `getLengthOfProbabilities size`
rationals initialised to 0 by `mpq_init`. -/
def createProbabilities (size : ℕ) : List ℚ :=
  List.replicate (getLengthOfProbabilities size) 0

/-- The C loop `for (i = k; i < l; i++) matrix[0][i] = 1` of
`initialiseFirstStage`, with each write bounds checked. -/
def writeOnes (row : List ℕ) (k l : ℕ) : Option (List ℕ) :=
  (List.range' k (l - k)).foldlM (fun r (i : ℕ) => listSetM r (i : ℤ) 1) row

/-- `initialiseFirstStage` from prob.c, instrumented. -/
def initialiseFirstStageM (matrix : List (List ℕ)) (size numberLower : ℕ) :
    Option (List (List ℕ)) := do
  let kl := firstStageKL size numberLower
  let row0 ← listGetM matrix 0
  let row0 ← writeOnes row0 kl.1 kl.2
  listSetM matrix 0 row0

/-- A bounds-checked summation loop `for (i = a; i < b; i++) s += row[i]`. -/
def sumRangeM (row : List ℕ) (a b : ℕ) : Option ℕ :=
  (List.range' a (b - a)).foldlM
    (fun s (i : ℕ) => do
      let v ← listGetM row (i : ℤ)
      pure (s + v)) 0

/-- `getNumberPathsLeadingTo` from prob.c, instrumented: both loops read
`matrix[previousStage][i]` with bounds checks. -/
def getNumberPathsLeadingToM (matrix : List (List ℕ)) (size stage numberLower : ℕ) :
    Option ℕ := do
  let previousStage := stage - 1
  let numberCardsLeftBeforeDealing := getNumberCardsLeftAfterDealing size previousStage
  let limit := (numberCardsLeftBeforeDealing + 1) / 2
  let kl := pathKL numberCardsLeftBeforeDealing limit numberLower
  let prevRow ← listGetM matrix previousStage
  let s1 ← sumRangeM prevRow 0 kl.1
  let s2 ← sumRangeM prevRow kl.2 (numberCardsLeftBeforeDealing + 1)
  pure (s1 + s2)

/-- `initialiseStage` from prob.c, instrumented: writes
`matrix[stage][i] = getNumberPathsLeadingTo(matrix, size, stage, i)` for
`0 ≤ i ≤ numberCardsLeft`. -/
def initialiseStageM (matrix : List (List ℕ)) (size stage : ℕ) :
    Option (List (List ℕ)) :=
  (List.range (getNumberCardsLeftAfterDealing size stage + 1)).foldlM
    (fun m i => do
      let v ← getNumberPathsLeadingToM m size stage i
      let row ← listGetM m stage
      let row ← listSetM row i v
      listSetM m stage row) matrix

/-- `calculateMatrix` from prob.c, instrumented. -/
def calculateMatrixM (size numberLower : ℕ) : Option (List (List ℕ)) := do
  let matrix := createMatrix size
  let matrix ← initialiseFirstStageM matrix size numberLower
  (List.range' 1 (size - 1 - 1)).foldlM (fun m i => initialiseStageM m size i) matrix

/-- `calculatePermutations` from prob.c, instrumented: note that the write of
`permutations[0]` is guarded only by `size > 0`, not by the table being
non-empty. -/
def calculatePermutationsM (size : ℕ) : Option (List ℕ) := do
  let permutations := createPermutations size
  if size > 0 then
    let permutations ← listSetM permutations 0 (size * (size - 1))
    (List.range' 1 (getLengthOfPermutations size - 1)).foldlM
      (fun p (i : ℕ) => do
        let prev ← listGetM p ((i : ℤ) - 1)
        listSetM p (i : ℤ) (prev * ((size - i) - 1))) permutations
  else pure permutations

/-- `getNumberShuffles` from prob.c, instrumented: reads
`permutations[lengthOfPermutations - 1]`, which is index `-1` when
`size = 2`. -/
def getNumberShufflesM (permutations : List ℕ) (size : ℕ) : Option ℕ :=
  listGetM permutations ((getLengthOfPermutations size : ℤ) - 1)

/-- `calculateInitialProbabilities` from prob.c, instrumented. -/
def calculateInitialProbabilitiesM (matrix : List (List ℕ)) (permutations : List ℕ)
    (probabilities : List ℚ) (size : ℕ) : Option (List ℚ) :=
  (List.range (size - 2)).foldlM
    (fun probs n => do
      let numberCardsLeft := size - n
      let sum ← (List.range numberCardsLeft).foldlM
        (fun s (numberLower : ℕ) => do
          let row ← listGetM matrix (n : ℤ)
          let entry ← listGetM row (numberLower : ℤ)
          pure (s + entry * numberFailingCards numberCardsLeft numberLower)) 0
      let p ← listGetM permutations n
      listSetM probs n ((sum : ℚ) / (p : ℚ))) probabilities

/-- `calculateFinalProbability` from prob.c, instrumented. -/
def calculateFinalProbabilityM (matrix : List (List ℕ)) (permutations : List ℕ)
    (probabilities : List ℚ) (size : ℕ) : Option (List ℚ) := do
  let lengthOfProbabilities := getLengthOfProbabilities size
  let row ← listGetM matrix ((size : ℤ) - 2)
  let a ← listGetM row 0
  let b ← listGetM row 1
  let numberShuffles ← getNumberShufflesM permutations size
  listSetM probabilities ((lengthOfProbabilities : ℤ) - 1)
    (((a + b : ℕ) : ℚ) / (numberShuffles : ℚ))

/-- `calculateProbabilities` from prob.c, instrumented: the same pipeline as
the total embedding, with every array access bounds checked. -/
def calculateProbabilitiesM (size numberLower : ℕ) : Option (List (ℕ × ℕ)) := do
  let probabilities := createProbabilities size
  let matrix ← calculateMatrixM size numberLower
  let permutations ← calculatePermutationsM size
  let probabilities ← calculateInitialProbabilitiesM matrix permutations probabilities size
  let probabilities ← calculateFinalProbabilityM matrix permutations probabilities size
  pure (convertToNumeratorsAndDenominators (accumulateProbabilities probabilities))

/-- Proof infrastructure: the sum of row `m` of the path-count table, i.e.
the number of ways to deal `m + 1` cards with the predictor correct at every
deal. -/
def stageRowSum (size numberLower m : ℕ) : ℕ :=
  ∑ i in Finset.range (size - m), rowGet (matrixRow size numberLower m) i

/-- Proof infrastructure: the telescoping quantity
`Q m = (number of all-correct (m+1)-deal paths) / (number of (m+1)-deals)`,
written with the program's permutation table. -/
def telescopeQ (size numberLower m : ℕ) : ℚ :=
  if m = 0 then (stageRowSum size numberLower 0 : ℚ) / (size : ℚ)
  else (stageRowSum size numberLower m : ℚ) / ((permEntry size (m - 1) : ℕ) : ℚ)

/-- Proof infrastructure: the matrix state after the rows `0 .. s` have been
written by the instrumented pipeline (rows above `s` still hold the zeroes
`createMatrix` allocated). -/
def partialMatrix (size numberLower s : ℕ) : List (List ℕ) :=
  (List.range (size - 1)).map fun i =>
    if i ≤ s then matrixRow size numberLower i else List.replicate (size - i) 0

/-! ## Brute-force game model (the specification's oracle for claim C1)

Written from the specification's words, independently of the path-count
recurrence: a labeled deck, exhaustive enumeration of ordered deals, and the
majority-rule predictor of §4.1 simulated on actual card values.

Card ranks are doubled (`2, 4, ..., 2*size`) so that the "last played card"
of the initial characterisation — a card with exactly `numberLower` remaining
cards below it — can be represented exactly by the odd value
`2*numberLower + 1` without colliding with any deck card. -/

/-- The labeled deck of `size` distinct remaining cards. -/
def deck (size : ℕ) : List ℕ := (List.range size).map fun i => 2 * i + 2

/-- The value of the last played card in the initial state characterised by
`numberLower`: exactly the cards `2, 4, ..., 2*numberLower` lie below it. -/
def initialThreshold (numberLower : ℕ) : ℕ := 2 * numberLower + 1

/-- Number of remaining cards ranked below the last dealt card. -/
def countLower (remaining : List ℕ) (t : ℕ) : ℕ :=
  remaining.countP fun c => decide (c < t)

/-- §4.1: the predictor forecasts "higher" iff `numberHigher ≥ numberLower`. -/
def predictsHigher (remaining : List ℕ) (t : ℕ) : Bool :=
  decide (countLower remaining t ≤ remaining.length - countLower remaining t)

/-- §4.1: dealing card `c` from `remaining` with last played card `t` is a
correct prediction iff `c` is on the predicted side of `t`. -/
def dealCorrect (remaining : List ℕ) (t c : ℕ) : Bool :=
  if predictsHigher remaining t then decide (t < c) else decide (c < t)

/-- All ordered deals of `m` distinct cards from `remaining`. -/
def allDeals (remaining : List ℕ) : ℕ → List (List ℕ)
  | 0 => [[]]
  | m + 1 => remaining.flatMap fun c => (allDeals (remaining.erase c) m).map fun d => c :: d

/-- The predictor was correct at every deal of the sequence. -/
def allCorrect (remaining : List ℕ) (t : ℕ) : List ℕ → Bool
  | [] => true
  | c :: rest => dealCorrect remaining t c && allCorrect (remaining.erase c) c rest

/-- The lower-count of the state reached after dealing the whole sequence. -/
def finalLower (remaining : List ℕ) (t : ℕ) : List ℕ → ℕ
  | [] => countLower remaining t
  | c :: rest => finalLower (remaining.erase c) c rest

/-- Brute-force count: the number of ordered deals of `stage + 1` cards from
the initial `(size, numberLower)` state at which the predictor was correct at
every deal and which end with exactly `lc` remaining lower cards. -/
def bruteCount (size numberLower stage lc : ℕ) : ℕ :=
  ((allDeals (deck size) (stage + 1)).filter fun d =>
    allCorrect (deck size) (initialThreshold numberLower) d &&
      decide (finalLower (deck size) (initialThreshold numberLower) d = lc)).length

/-- Brute-force count of all-correct deals of `m` cards (any final state). -/
def bruteCorrect (size numberLower m : ℕ) : ℕ :=
  ((allDeals (deck size) m).filter fun d =>
    allCorrect (deck size) (initialThreshold numberLower) d).length

/-- Pruned recursive evaluation of `bruteCount` (counts the same deals while
skipping extensions of already-incorrect prefixes); proved equal to
`bruteCount` in `bruteCount_eq_fcCount` below and used only to make kernel
evaluation of the brute-force oracle feasible. -/
def fcCount (remaining : List ℕ) (t : ℕ) : ℕ → ℕ → ℕ
  | 0, lc => if countLower remaining t = lc then 1 else 0
  | m + 1, lc =>
    (remaining.map fun c =>
      if dealCorrect remaining t c then fcCount (remaining.erase c) c m lc else 0).sum

/-- Pruned recursive evaluation of `bruteCorrect`. -/
def fcAll (remaining : List ℕ) (t : ℕ) : ℕ → ℕ
  | 0 => 1
  | m + 1 =>
    (remaining.map fun c =>
      if dealCorrect remaining t c then fcAll (remaining.erase c) c m else 0).sum

/-- The brute-force prediction of the values returned by
`calculateProbabilities`: entry `n` is the (reduced) ratio of the number of
all-correct ordered deals of `n + 1` cards to the number of all ordered
deals of `n + 1` cards, exported as a (numerator, denominator) pair. -/
def bruteResults (size numberLower : ℕ) : List (ℕ × ℕ) :=
  (List.range (size - 1)).map fun n =>
    (((bruteCorrect size numberLower (n + 1) : ℚ) /
        ((allDeals (deck size) (n + 1)).length : ℚ)).num.toNat,
     ((bruteCorrect size numberLower (n + 1) : ℚ) /
        ((allDeals (deck size) (n + 1)).length : ℚ)).den)

/-! ## Spec-side transition cut points (for claim C3)

These definitions follow the wording of §4.2 of the specification, written
independently of `getNumberPathsLeadingTo`: `limit = ceil(before / 2)` is a
real ceiling of a rational, and the `(k, l)` case split is transcribed from
the specification's bullet list. -/

/-- The specification's `limit = ceil(before / 2)`. -/
def specLimit (before : ℕ) : ℕ := ⌈(before : ℚ) / 2⌉₊

/-- The specification's case split for the cut points `(k, l)`:
`before` even: if `t ≤ limit` then `(t+1, limit+1)` else `(limit+1, t+1)`;
`before` odd: if `t < limit` then `(t+1, limit)`, if `t = limit` then
`(limit, limit+1)`, if `t > limit` then `(limit, t+1)`. -/
def specKL (before t : ℕ) : ℕ × ℕ :=
  if Even before then
    if t ≤ specLimit before then (t + 1, specLimit before + 1)
    else (specLimit before + 1, t + 1)
  else
    if t < specLimit before then (t + 1, specLimit before)
    else if t = specLimit before then (specLimit before, specLimit before + 1)
    else (specLimit before, t + 1)

end HiLo

namespace HiLo

/-! # Theorems -/

set_option maxHeartbeats 12000000 in
/-- Claim C9: for `2 ≤ size ≤ 13` and `0 ≤ numberLower ≤ size`, every
intermediate integer fits its fixed-width C type: every path-count matrix
entry and every product of an entry with `numberFailingCards` fits a 32-bit
`int`, every accumulated sum (`failSum`, and the final-stage sum) and every
permutation-table entry fits a 64-bit `long`, and every exported numerator
and denominator fits a 64-bit `unsigned long`; hence the fixed-width
computation agrees with exact integer arithmetic. -/
theorem c9_fixed_width_arithmetic_never_overflows (size numberLower : ℕ)
    (h2 : 2 ≤ size) (h13 : size ≤ 13) (hnl : numberLower ≤ size) :
    (∀ stage < size - 1, ∀ lc < size - stage,
      rowGet (matrixRow size numberLower stage) lc < 2 ^ 31 ∧
      rowGet (matrixRow size numberLower stage) lc *
        numberFailingCards (size - stage) lc < 2 ^ 31) ∧
    (∀ n < size - 2, failSum size numberLower n < 2 ^ 63) ∧
    (∀ i < size - 2, permEntry size i < 2 ^ 63) ∧
    (rowGet (matrixRow size numberLower (size - 2)) 0 +
      rowGet (matrixRow size numberLower (size - 2)) 1 < 2 ^ 63) ∧
    (∀ p ∈ calculateProbabilities size numberLower, p.1 < 2 ^ 64 ∧ p.2 < 2 ^ 64) := by
  interval_cases size <;> interval_cases numberLower <;> with_unfolding_all decide

/-- Witness for C9 at the concrete input `size = 13`, `numberLower = 0`. -/
theorem c9_fixed_width_arithmetic_never_overflows_witness :
    (2 ≤ 13 ∧ 13 ≤ 13 ∧ 0 ≤ 13) ∧
    ((∀ stage < 13 - 1, ∀ lc < 13 - stage,
      rowGet (matrixRow 13 0 stage) lc < 2 ^ 31 ∧
      rowGet (matrixRow 13 0 stage) lc * numberFailingCards (13 - stage) lc < 2 ^ 31) ∧
    (∀ n < 13 - 2, failSum 13 0 n < 2 ^ 63) ∧
    (∀ i < 13 - 2, permEntry 13 i < 2 ^ 63) ∧
    (rowGet (matrixRow 13 0 (13 - 2)) 0 + rowGet (matrixRow 13 0 (13 - 2)) 1 < 2 ^ 63) ∧
    (∀ p ∈ calculateProbabilities 13 0, p.1 < 2 ^ 64 ∧ p.2 < 2 ^ 64)) :=
  ⟨by decide, c9_fixed_width_arithmetic_never_overflows 13 0 (by decide) (by decide) (by decide)⟩

/-! ## Generic list helpers -/

theorem listGetD_range_map {α : Type} (f : ℕ → α) (d : α) {i n : ℕ} (h : i < n) :
    ((List.range n).map f).getD i d = f i := by
  rw [List.getD_eq_getElem?_getD, List.getElem?_map, List.getElem?_range h]
  rfl

theorem rowGet_range_map (f : ℕ → ℕ) {i n : ℕ} (h : i < n) :
    rowGet ((List.range n).map f) i = f i :=
  listGetD_range_map f 0 h

theorem listSum_range_map {M : Type} [AddCommMonoid M] (f : ℕ → M) (n : ℕ) :
    ((List.range n).map f).sum = ∑ i in Finset.range n, f i := by
  induction n with
  | zero => simp
  | succ n ih => rw [List.range_succ, List.map_append, List.sum_append,
      Finset.sum_range_succ, ih]; simp

theorem listSum_shift_map (f : ℕ → ℕ) (a n : ℕ) :
    ((List.range n).map fun j => f (a + j)).sum = ∑ i in Finset.Ico a (a + n), f i := by
  induction n with
  | zero => simp
  | succ n ih =>
    rw [← Nat.add_assoc, List.range_succ, List.map_append, List.sum_append,
      Finset.sum_Ico_succ_top (Nat.le_add_right a n), ih]
    simp

/-! ## Bounds-checked accesses succeed in bounds -/

theorem listGetM_coe {α : Type} (xs : List α) (i : ℕ) (d : α) (h : i < xs.length) :
    listGetM xs (i : ℤ) = some (xs.getD i d) := by
  rw [listGetM, dif_pos ⟨Int.natCast_nonneg i, by simpa using h⟩, List.getD_eq_getElem xs d h]
  rfl

theorem listSetM_coe {α : Type} (xs : List α) (i : ℕ) (v : α) (h : i < xs.length) :
    listSetM xs (i : ℤ) v = some (xs.set i v) := by
  rw [listSetM, if_pos ⟨Int.natCast_nonneg i, by simpa using h⟩]
  rfl

theorem listGetM_zero {α : Type} (xs : List α) (d : α) (h : 0 < xs.length) :
    listGetM xs 0 = some (xs.getD 0 d) := by
  simpa using listGetM_coe xs 0 d h

theorem listGetM_one {α : Type} (xs : List α) (d : α) (h : 1 < xs.length) :
    listGetM xs 1 = some (xs.getD 1 d) := by
  simpa using listGetM_coe xs 1 d h

theorem listSetM_zero {α : Type} (xs : List α) (v : α) (h : 0 < xs.length) :
    listSetM xs 0 v = some (xs.set 0 v) := by
  simpa using listSetM_coe xs 0 v h

theorem foldlM_option_eq_foldl {α β : Type} (g : α → β → α) :
    ∀ (L : List β) (f : α → β → Option α), (∀ a b, b ∈ L → f a b = some (g a b)) →
      ∀ init, L.foldlM f init = some (L.foldl g init) := by
  intro L
  induction L with
  | nil => intro f hf init; rfl
  | cons b L ih =>
    intro f hf init
    rw [List.foldlM_cons, hf init b (by simp)]
    show L.foldlM f (g init b) = _
    rw [ih f (fun a c hc => hf a c (by simp [hc])), List.foldl_cons]

theorem foldl_add_eq_sum (h : ℕ → ℕ) :
    ∀ (L : List ℕ) (acc : ℕ), L.foldl (fun s i => s + h i) acc = acc + (L.map h).sum := by
  intro L
  induction L with
  | nil => intro acc; simp
  | cons b L ih =>
    intro acc
    rw [List.foldl_cons, ih, List.map_cons, List.sum_cons]
    omega

theorem set_range_map {α : Type} (f : ℕ → α) {n i : ℕ} (v : α) (h : i < n) :
    ((List.range n).map f).set i v = (List.range n).map fun j => if j = i then v else f j := by
  apply List.ext_getElem
  · simp
  · intro j h1 h2
    simp only [List.length_set, List.length_map, List.length_range] at h1
    rw [List.getElem_set]
    by_cases hji : i = j
    · subst hji
      simp
    · rw [if_neg hji]
      simp only [List.getElem_map, List.getElem_range]
      rw [if_neg fun hji2 => hji hji2.symm]

theorem map_range_congr {α : Type} {f g : ℕ → α} {n : ℕ} (h : ∀ j < n, f j = g j) :
    (List.range n).map f = (List.range n).map g :=
  List.map_congr_left fun j hj => h j (List.mem_range.mp hj)

/-! ## The instrumented pipeline agrees with the total embedding -/

theorem permLoop (size : ℕ) :
    ∀ cnt a : ℕ, 1 ≤ a → a + cnt ≤ size - 2 →
      (List.range' a cnt).foldlM
        (fun p (i : ℕ) => do
          let prev ← listGetM p ((i : ℤ) - 1)
          listSetM p (i : ℤ) (prev * ((size - i) - 1)))
        ((List.range (size - 2)).map fun j => if j < a then permEntry size j else 0) =
      some ((List.range (size - 2)).map fun j =>
        if j < a + cnt then permEntry size j else 0) := by
  intro cnt
  induction cnt with
  | zero => intro a ha hcnt; rfl
  | succ cnt ih =>
    intro a ha hcnt
    obtain ⟨b, rfl⟩ : ∃ b, a = b + 1 := ⟨a - 1, by omega⟩
    have hget : listGetM
        ((List.range (size - 2)).map fun j => if j < b + 1 then permEntry size j else 0)
        (((b + 1 : ℕ) : ℤ) - 1) = some (permEntry size b) := by
      have hcast : (((b + 1 : ℕ) : ℤ)) - 1 = ((b : ℕ) : ℤ) := by push_cast; ring
      rw [hcast, listGetM_coe _ b 0 (by simp; omega),
        listGetD_range_map _ _ (by omega), if_pos (by omega)]
    have hset : listSetM
        ((List.range (size - 2)).map fun j => if j < b + 1 then permEntry size j else 0)
        ((b + 1 : ℕ) : ℤ) (permEntry size b * ((size - (b + 1)) - 1)) =
        some ((List.range (size - 2)).map fun j =>
          if j < b + 2 then permEntry size j else 0) := by
      rw [listSetM_coe _ (b + 1) _ (by simp; omega), set_range_map _ _ (by omega)]
      congr 1
      apply map_range_congr
      intro j hj
      by_cases hja : j = b + 1
      · subst hja
        rw [if_pos rfl, if_pos (by omega)]
        rfl
      · rw [if_neg hja]
        by_cases hlt : j < b + 1
        · rw [if_pos hlt, if_pos (by omega)]
        · rw [if_neg hlt, if_neg (by omega)]
    rw [List.range'_succ, List.foldlM_cons]
    show (do
        let prev ← listGetM _ (((b + 1 : ℕ) : ℤ) - 1)
        listSetM _ ((b + 1 : ℕ) : ℤ) (prev * ((size - (b + 1)) - 1)) :
          Option (List ℕ)) >>= _ = _
    rw [hget]
    show (listSetM _ ((b + 1 : ℕ) : ℤ) (permEntry size b * ((size - (b + 1)) - 1)) :
      Option (List ℕ)) >>= _ = _
    rw [hset]
    show (List.range' (b + 1 + 1) cnt).foldlM _ _ = _
    rw [show b + 1 + (cnt + 1) = b + 2 + cnt by omega]
    exact ih (b + 2) (by omega) (by omega)

theorem calculatePermutationsM_eq (size : ℕ) (h3 : 3 ≤ size) :
    calculatePermutationsM size = some (calculatePermutations size) := by
  have hlen : (createPermutations size).length = size - 2 := by
    rw [createPermutations, List.length_replicate, getLengthOfPermutations]
  rw [calculatePermutationsM]
  rw [if_pos (by omega : size > 0)]
  rw [listSetM_zero _ _ (by omega)]
  show (List.range' 1 (getLengthOfPermutations size - 1)).foldlM _
      ((createPermutations size).set 0 (size * (size - 1))) = _
  have hinit : (createPermutations size).set 0 (size * (size - 1)) =
      (List.range (size - 2)).map fun j => if j < 1 then permEntry size j else 0 := by
    have hrep : createPermutations size = (List.range (size - 2)).map fun _ => 0 := by
      rw [createPermutations, getLengthOfPermutations, List.map_const', List.length_range]
    rw [hrep, set_range_map _ _ (by omega)]
    apply map_range_congr
    intro j hj
    by_cases hj0 : j = 0
    · subst hj0
      rw [if_pos rfl, if_pos (by omega)]
      rfl
    · rw [if_neg hj0, if_neg (by omega)]
  rw [hinit, getLengthOfPermutations]
  have hloop := permLoop size (size - 2 - 1) 1 (le_refl 1) (by omega)
  rw [hloop, calculatePermutations, getLengthOfPermutations]
  congr 1
  apply map_range_congr
  intro j hj
  rw [if_pos (by omega)]

theorem matrixRow_length (size numberLower : ℕ) :
    ∀ s, s < size → (matrixRow size numberLower s).length = size - s := by
  intro s hs
  cases s with
  | zero => simp [matrixRow, initialiseFirstStage]
  | succ p =>
    rw [matrixRow, initialiseStage, List.length_map, List.length_range,
      getNumberCardsLeftAfterDealing]
    omega

theorem length_partialMatrix (size numberLower s : ℕ) :
    (partialMatrix size numberLower s).length = size - 1 := by
  rw [partialMatrix, List.length_map, List.length_range]

theorem partialMatrix_getD (size numberLower cur s : ℕ) (h : s < size - 1) :
    (partialMatrix size numberLower cur).getD s [] =
      if s ≤ cur then matrixRow size numberLower s else List.replicate (size - s) 0 := by
  rw [partialMatrix, listGetD_range_map _ _ h]

theorem writeLoop (n : ℕ) :
    ∀ (cnt a : ℕ) (f : ℕ → ℕ), a + cnt ≤ n →
      (List.range' a cnt).foldlM (fun r (i : ℕ) => listSetM r (i : ℤ) 1)
        ((List.range n).map f) =
      some ((List.range n).map fun j => if a ≤ j ∧ j < a + cnt then 1 else f j) := by
  intro cnt
  induction cnt with
  | zero =>
    intro a f h
    show some _ = some _
    congr 1
    apply map_range_congr
    intro j hj
    rw [if_neg (by omega)]
  | succ cnt ih =>
    intro a f h
    rw [List.range'_succ, List.foldlM_cons, listSetM_coe _ a _ (by simp; omega)]
    show (List.range' (a + 1) cnt).foldlM _ (((List.range n).map f).set a 1) = _
    rw [set_range_map _ _ (by omega), ih (a + 1) _ (by omega)]
    congr 1
    apply map_range_congr
    intro j hj
    by_cases h1 : a + 1 ≤ j ∧ j < a + 1 + cnt
    · rw [if_pos h1, if_pos (by omega)]
    · rw [if_neg h1]
      by_cases h2 : j = a
      · subst h2
        rw [if_pos rfl, if_pos (by omega)]
      · rw [if_neg h2, if_neg (by omega)]

theorem initialiseFirstStageM_eq (size numberLower : ℕ)
    (h2 : 2 ≤ size) (hnl : numberLower ≤ size) :
    initialiseFirstStageM (createMatrix size) size numberLower =
      some (partialMatrix size numberLower 0) := by
  have hcmlen : (createMatrix size).length = size - 1 := by
    rw [createMatrix, List.length_map, List.length_range]
  have hget : listGetM (createMatrix size) 0 = some (List.replicate size 0) := by
    rw [listGetM_zero _ [] (by omega), createMatrix, listGetD_range_map _ _ (by omega),
      Nat.sub_zero]
  have hrep : List.replicate size (0 : ℕ) = (List.range size).map fun _ => 0 := by
    rw [List.map_const', List.length_range]
  have hwrites : writeOnes (List.replicate size 0) (firstStageKL size numberLower).1
      (firstStageKL size numberLower).2 = some (initialiseFirstStage size numberLower) := by
    have hkl : (firstStageKL size numberLower).1 ≤ (firstStageKL size numberLower).2 ∧
        (firstStageKL size numberLower).2 ≤ size := by
      rw [firstStageKL]
      split_ifs <;> exact ⟨by omega, by omega⟩
    rw [writeOnes, hrep, writeLoop size _ _ _ (by omega), initialiseFirstStage]
    congr 1
    apply map_range_congr
    intro j hj
    refine if_congr ?_ rfl rfl
    omega
  rw [initialiseFirstStageM, hget]
  show writeOnes (List.replicate size 0) _ _ >>= _ = _
  rw [hwrites]
  show listSetM (createMatrix size) 0 (initialiseFirstStage size numberLower) = _
  rw [listSetM_zero _ _ (by omega)]
  congr 1
  rw [createMatrix, set_range_map _ _ (by omega), partialMatrix]
  apply map_range_congr
  intro j hj
  by_cases hj0 : j = 0
  · subst hj0
    rw [if_pos rfl, if_pos (by omega)]
    rfl
  · rw [if_neg hj0, if_neg (by omega)]

theorem sumLoop (row : List ℕ) :
    ∀ (cnt a : ℕ), a + cnt ≤ row.length → ∀ acc : ℕ,
      (List.range' a cnt).foldlM
        (fun s i => do
          let v ← listGetM row (i : ℤ)
          pure (s + v)) acc =
      some (acc + ((List.range cnt).map fun j => rowGet row (a + j)).sum) := by
  intro cnt
  induction cnt with
  | zero => intro a h acc; simp
  | succ cnt ih =>
    intro a h acc
    rw [List.range'_succ, List.foldlM_cons, listGetM_coe _ a 0 (by omega)]
    show (List.range' (a + 1) cnt).foldlM _ (acc + rowGet row a) = _
    rw [ih (a + 1) (by omega)]
    congr 1
    rw [listSum_range_map, listSum_range_map, Finset.sum_range_succ']
    have hidx : ∀ j, rowGet row (a + (j + 1)) = rowGet row (a + 1 + j) := by
      intro j
      congr 1
      omega
    rw [Finset.sum_congr rfl fun j hj => hidx j]
    simp only [Nat.add_zero]
    omega

theorem sumRangeM_eq (row : List ℕ) (a b : ℕ) (hb : b ≤ row.length) (hab : a ≤ b) :
    sumRangeM row a b =
      some (((List.range (b - a)).map fun j => rowGet row (a + j)).sum) := by
  rw [sumRangeM, sumLoop row (b - a) a (by omega) 0, Nat.zero_add]

theorem pathKL_le (B t : ℕ) (hB : 1 ≤ B) (ht : t ≤ B - 1) :
    (pathKL B ((B + 1) / 2) t).1 ≤ B + 1 ∧ (pathKL B ((B + 1) / 2) t).2 ≤ B + 1 := by
  have hlim : (B + 1) / 2 ≤ B := by omega
  rw [pathKL]
  split_ifs <;> exact ⟨by simp <;> omega, by simp <;> omega⟩

theorem getD_set_ne {α : Type} (l : List α) (i j : ℕ) (v d : α)
    (hij : i ≠ j) (hj : j < l.length) : (l.set i v).getD j d = l.getD j d := by
  rw [List.getD_eq_getElem _ d (by simpa using hj), List.getD_eq_getElem l d hj,
    List.getElem_set_ne hij]

theorem getD_set_self {α : Type} (l : List α) (i : ℕ) (v d : α)
    (hi : i < l.length) : (l.set i v).getD i d = v := by
  rw [List.getD_eq_getElem _ d (by simpa using hi), List.getElem_set_self]

theorem selfMap (row : List ℕ) : (List.range row.length).map (rowGet row) = row := by
  apply List.ext_getElem
  · simp
  · intro n h1 h2
    simp only [List.getElem_map, List.getElem_range, rowGet]
    rw [List.getD_eq_getElem row 0 h2]

theorem rowGet_matrixRow_succ (size numberLower p a : ℕ)
    (ha : a < getNumberCardsLeftAfterDealing size (p + 1) + 1) :
    rowGet (matrixRow size numberLower (p + 1)) a =
      getNumberPathsLeadingTo (matrixRow size numberLower p) size (p + 1) a := by
  rw [matrixRow, initialiseStage, rowGet_range_map _ ha]

theorem getNumberPathsLeadingToM_eq (size numberLower s t : ℕ) (m : List (List ℕ))
    (hs1 : 1 ≤ s) (hs2 : s ≤ size - 2) (ht : t ≤ size - s - 1)
    (hlen : s - 1 < m.length)
    (hrow : m.getD (s - 1) [] = matrixRow size numberLower (s - 1)) :
    getNumberPathsLeadingToM m size s t =
      some (getNumberPathsLeadingTo (matrixRow size numberLower (s - 1)) size s t) := by
  have hsz : 3 ≤ size := by omega
  have hB : getNumberCardsLeftAfterDealing size (s - 1) = size - s := by
    rw [getNumberCardsLeftAfterDealing]
    omega
  have hrowlen : (matrixRow size numberLower (s - 1)).length = size - s + 1 := by
    rw [matrixRow_length size numberLower (s - 1) (by omega)]
    omega
  have hkl := pathKL_le (size - s) t (by omega) (by omega)
  rw [getNumberPathsLeadingToM, hB, listGetM_coe m (s - 1) [] hlen, hrow]
  show (sumRangeM (matrixRow size numberLower (s - 1)) 0
      (pathKL (size - s) ((size - s + 1) / 2) t).1) >>= _ = _
  rw [sumRangeM_eq _ _ _ (by omega) (by omega)]
  show (sumRangeM (matrixRow size numberLower (s - 1))
      (pathKL (size - s) ((size - s + 1) / 2) t).2 (size - s + 1)) >>= _ = _
  rw [sumRangeM_eq _ _ _ (by omega) (by omega)]
  show some _ = some _
  rw [getNumberPathsLeadingTo, hB]
  simp only [Nat.sub_zero, Nat.zero_add]

theorem stageLoop (size numberLower s : ℕ) (hs1 : 1 ≤ s) (hs2 : s ≤ size - 2) :
    ∀ cnt a : ℕ, a + cnt ≤ size - s →
      (List.range' a cnt).foldlM
        (fun m i => do
          let v ← getNumberPathsLeadingToM m size s i
          let row ← listGetM m s
          let row ← listSetM row i v
          listSetM m s row)
        ((partialMatrix size numberLower (s - 1)).set s
          ((List.range (size - s)).map fun j =>
            if j < a then rowGet (matrixRow size numberLower s) j else 0)) =
      some ((partialMatrix size numberLower (s - 1)).set s
        ((List.range (size - s)).map fun j =>
          if j < a + cnt then rowGet (matrixRow size numberLower s) j else 0)) := by
  have hpmlen : (partialMatrix size numberLower (s - 1)).length = size - 1 :=
    length_partialMatrix size numberLower (s - 1)
  intro cnt
  induction cnt with
  | zero => intro a h; rfl
  | succ cnt ih =>
    intro a h
    set rowP : ℕ → List ℕ := fun c => (List.range (size - s)).map fun j =>
      if j < c then rowGet (matrixRow size numberLower s) j else 0 with hrowP
    have hmlen : ((partialMatrix size numberLower (s - 1)).set s (rowP a)).length =
        size - 1 := by
      rw [List.length_set, hpmlen]
    have hv : getNumberPathsLeadingToM
        ((partialMatrix size numberLower (s - 1)).set s (rowP a)) size s a =
        some (getNumberPathsLeadingTo (matrixRow size numberLower (s - 1)) size s a) := by
      apply getNumberPathsLeadingToM_eq size numberLower s a _ hs1 hs2 (by omega)
        (by omega)
      rw [getD_set_ne _ _ _ _ _ (by omega) (by omega),
        partialMatrix_getD _ _ _ _ (by omega), if_pos (le_refl _)]
    have hval : getNumberPathsLeadingTo (matrixRow size numberLower (s - 1)) size s a =
        rowGet (matrixRow size numberLower s) a := by
      obtain ⟨p, rfl⟩ : ∃ p, s = p + 1 := ⟨s - 1, by omega⟩
      rw [rowGet_matrixRow_succ size numberLower p a
        (by rw [getNumberCardsLeftAfterDealing]; omega)]
      congr 1
    have hgetrow : listGetM ((partialMatrix size numberLower (s - 1)).set s (rowP a))
        (s : ℤ) = some (rowP a) := by
      rw [listGetM_coe _ s [] (by omega), getD_set_self _ _ _ _ (by omega)]
    have hsetrow : listSetM (rowP a) (a : ℤ) (rowGet (matrixRow size numberLower s) a) =
        some (rowP (a + 1)) := by
      rw [listSetM_coe _ a _ (by rw [hrowP]; simp; omega), hrowP,
        set_range_map _ _ (by omega)]
      congr 1
      apply map_range_congr
      intro j hj
      by_cases hja : j = a
      · subst hja
        rw [if_pos rfl, if_pos (by omega)]
      · rw [if_neg hja]
        by_cases hlt : j < a
        · rw [if_pos hlt, if_pos (by omega)]
        · rw [if_neg hlt, if_neg (by omega)]
    have hsetm : listSetM ((partialMatrix size numberLower (s - 1)).set s (rowP a))
        (s : ℤ) (rowP (a + 1)) =
        some ((partialMatrix size numberLower (s - 1)).set s (rowP (a + 1))) := by
      rw [listSetM_coe _ s _ (by omega), List.set_set]
    rw [List.range'_succ, List.foldlM_cons]
    show (do
        let v ← getNumberPathsLeadingToM
          ((partialMatrix size numberLower (s - 1)).set s (rowP a)) size s a
        let row ← listGetM ((partialMatrix size numberLower (s - 1)).set s (rowP a)) s
        let row ← listSetM row (a : ℤ) v
        listSetM ((partialMatrix size numberLower (s - 1)).set s (rowP a)) s row :
          Option (List (List ℕ))) >>= _ = _
    rw [hv]
    show (do
        let row ← listGetM ((partialMatrix size numberLower (s - 1)).set s (rowP a)) s
        let row ← listSetM row (a : ℤ)
          (getNumberPathsLeadingTo (matrixRow size numberLower (s - 1)) size s a)
        listSetM ((partialMatrix size numberLower (s - 1)).set s (rowP a)) s row :
          Option (List (List ℕ))) >>= _ = _
    rw [hval, hgetrow]
    show (do
        let row ← listSetM (rowP a) (a : ℤ) (rowGet (matrixRow size numberLower s) a)
        listSetM ((partialMatrix size numberLower (s - 1)).set s (rowP a)) s row :
          Option (List (List ℕ))) >>= _ = _
    rw [hsetrow]
    show (listSetM ((partialMatrix size numberLower (s - 1)).set s (rowP a)) (s : ℤ)
        (rowP (a + 1))) >>= _ = _
    rw [hsetm]
    show (List.range' (a + 1) cnt).foldlM _
      ((partialMatrix size numberLower (s - 1)).set s (rowP (a + 1))) = _
    rw [show a + (cnt + 1) = a + 1 + cnt by omega]
    exact ih (a + 1) (by omega)

theorem initialiseStageM_eq (size numberLower s : ℕ) (hs1 : 1 ≤ s) (hs2 : s ≤ size - 2) :
    initialiseStageM (partialMatrix size numberLower (s - 1)) size s =
      some (partialMatrix size numberLower s) := by
  have hsz : 3 ≤ size := by omega
  have hrange : getNumberCardsLeftAfterDealing size s + 1 = size - s := by
    rw [getNumberCardsLeftAfterDealing]
    omega
  have hinit : (partialMatrix size numberLower (s - 1)).set s
      ((List.range (size - s)).map fun j =>
        if j < 0 then rowGet (matrixRow size numberLower s) j else 0) =
      partialMatrix size numberLower (s - 1) := by
    have hval : ((List.range (size - s)).map fun j =>
        if j < 0 then rowGet (matrixRow size numberLower s) j else 0) =
        List.replicate (size - s) 0 := by
      rw [map_range_congr (fun j hj => if_neg (by omega)), List.map_const',
        List.length_range]
    rw [hval, partialMatrix, set_range_map _ _ (by omega)]
    apply map_range_congr
    intro j hj
    by_cases hjs : j = s
    · subst hjs
      rw [if_pos rfl, if_neg (by omega)]
    · rw [if_neg hjs]
  have hloop := stageLoop size numberLower s hs1 hs2 (size - s) 0 (by omega)
  rw [hinit] at hloop
  rw [initialiseStageM, hrange, List.range_eq_range', hloop]
  congr 1
  have hfull : ((List.range (size - s)).map fun j =>
      if j < 0 + (size - s) then rowGet (matrixRow size numberLower s) j else 0) =
      matrixRow size numberLower s := by
    rw [map_range_congr (fun j hj => if_pos (by omega))]
    have hlen : (matrixRow size numberLower s).length = size - s :=
      matrixRow_length size numberLower s (by omega)
    rw [← hlen, selfMap]
  rw [hfull, partialMatrix, set_range_map _ _ (by omega), partialMatrix]
  apply map_range_congr
  intro j hj
  by_cases hjs : j = s
  · subst hjs
    rw [if_pos rfl, if_pos (le_refl _)]
  · rw [if_neg hjs]
    refine if_congr ?_ rfl rfl
    omega

theorem stagesLoop (size numberLower : ℕ) (h3 : 3 ≤ size) :
    ∀ cnt a : ℕ, 1 ≤ a → a + cnt ≤ size - 1 →
      (List.range' a cnt).foldlM (fun m i => initialiseStageM m size i)
        (partialMatrix size numberLower (a - 1)) =
      some (partialMatrix size numberLower (a - 1 + cnt)) := by
  intro cnt
  induction cnt with
  | zero => intro a h1 h2; rfl
  | succ cnt ih =>
    intro a h1 h2
    rw [List.range'_succ, List.foldlM_cons, initialiseStageM_eq size numberLower a h1
      (by omega)]
    show (List.range' (a + 1) cnt).foldlM _ (partialMatrix size numberLower a) = _
    have := ih (a + 1) (by omega) (by omega)
    rw [show a + 1 - 1 = a by omega] at this
    rw [this, show a - 1 + (cnt + 1) = a + 1 - 1 + cnt by omega,
      show a + 1 - 1 = a by omega]

theorem calculateMatrixM_eq (size numberLower : ℕ) (h3 : 3 ≤ size)
    (hnl : numberLower ≤ size) :
    calculateMatrixM size numberLower = some (calculateMatrix size numberLower) := by
  rw [calculateMatrixM, initialiseFirstStageM_eq size numberLower (by omega) hnl]
  show (List.range' 1 (size - 1 - 1)).foldlM _ (partialMatrix size numberLower 0) = _
  have hloop := stagesLoop size numberLower h3 (size - 2) 1 (le_refl 1) (by omega)
  rw [show (1 : ℕ) - 1 = 0 by omega] at hloop
  rw [show size - 1 - 1 = size - 2 by omega, hloop,
    show 0 + (size - 2) = size - 2 by omega]
  congr 1
  rw [partialMatrix, calculateMatrix]
  apply map_range_congr
  intro j hj
  rw [if_pos (by omega)]

theorem rowGet_calculatePermutations (size n : ℕ) (h : n < size - 2) :
    rowGet (calculatePermutations size) n = permEntry size n := by
  rw [rowGet, calculatePermutations, getLengthOfPermutations, listGetD_range_map _ _ h]

theorem getD_calculateMatrix (size numberLower n : ℕ) (h : n < size - 1) :
    (calculateMatrix size numberLower).getD n [] = matrixRow size numberLower n := by
  rw [calculateMatrix, listGetD_range_map _ _ h]

theorem initProbLoop (size numberLower : ℕ) (h3 : 3 ≤ size) :
    ∀ cnt a : ℕ, a + cnt ≤ size - 2 →
      (List.range' a cnt).foldlM
        (fun probs n => do
          let numberCardsLeft := size - n
          let sum ← (List.range numberCardsLeft).foldlM
            (fun s (numberLower2 : ℕ) => do
              let row ← listGetM (calculateMatrix size numberLower) (n : ℤ)
              let entry ← listGetM row (numberLower2 : ℤ)
              pure (s + entry * numberFailingCards numberCardsLeft numberLower2)) 0
          let p ← listGetM (calculatePermutations size) n
          listSetM probs n ((sum : ℚ) / (p : ℚ)))
        ((List.range (size - 1)).map fun j =>
          if j < a then initialProbability size numberLower j else 0) =
      some ((List.range (size - 1)).map fun j =>
        if j < a + cnt then initialProbability size numberLower j else 0) := by
  intro cnt
  induction cnt with
  | zero => intro a h; rfl
  | succ cnt ih =>
    intro a h
    have hrowlen : (matrixRow size numberLower a).length = size - a := by
      rw [matrixRow_length size numberLower a (by omega)]
    have hsum : (List.range (size - a)).foldlM
        (fun s (numberLower2 : ℕ) => do
          let row ← listGetM (calculateMatrix size numberLower) ((a : ℕ) : ℤ)
          let entry ← listGetM row (numberLower2 : ℤ)
          pure (s + entry * numberFailingCards (size - a) numberLower2)) 0 =
        some (failSum size numberLower a) := by
      rw [foldlM_option_eq_foldl
        (fun s lc => s + rowGet (matrixRow size numberLower a) lc *
          numberFailingCards (size - a) lc)]
      · rw [foldl_add_eq_sum, failSum, Nat.zero_add]
      · intro acc lc hlc
        have hlc2 : lc < size - a := List.mem_range.mp hlc
        rw [listGetM_coe _ a [] (by rw [calculateMatrix]; simp; omega),
          getD_calculateMatrix size numberLower a (by omega)]
        show listGetM (matrixRow size numberLower a) (lc : ℤ) >>= _ = _
        rw [listGetM_coe _ lc 0 (by omega)]
        rfl
    have hstep : ∀ probs : List ℚ, probs.length = size - 1 →
        (do
          let sum ← (List.range (size - a)).foldlM
            (fun s (numberLower2 : ℕ) => do
              let row ← listGetM (calculateMatrix size numberLower) ((a : ℕ) : ℤ)
              let entry ← listGetM row (numberLower2 : ℤ)
              pure (s + entry * numberFailingCards (size - a) numberLower2)) 0
          let p ← listGetM (calculatePermutations size) a
          listSetM probs a ((sum : ℚ) / (p : ℚ)) : Option (List ℚ)) =
        some (probs.set a (initialProbability size numberLower a)) := by
      intro probs hplen
      rw [hsum]
      show (do
        let p ← listGetM (calculatePermutations size) a
        listSetM probs a ((failSum size numberLower a : ℚ) / (p : ℚ)) :
          Option (List ℚ)) = _
      rw [listGetM_coe _ a 0 (by rw [calculatePermutations]; simp [getLengthOfPermutations]; omega)]
      show listSetM probs (a : ℤ)
        ((failSum size numberLower a : ℚ) /
          ((calculatePermutations size).getD a 0 : ℚ)) = _
      rw [listSetM_coe _ a _ (by omega), initialProbability, rowGet]
    rw [List.range'_succ, List.foldlM_cons]
    show (do
        let sum ← (List.range (size - a)).foldlM
          (fun s (numberLower2 : ℕ) => do
            let row ← listGetM (calculateMatrix size numberLower) ((a : ℕ) : ℤ)
            let entry ← listGetM row (numberLower2 : ℤ)
            pure (s + entry * numberFailingCards (size - a) numberLower2)) 0
        let p ← listGetM (calculatePermutations size) a
        listSetM ((List.range (size - 1)).map fun j =>
          if j < a then initialProbability size numberLower j else 0) a
          ((sum : ℚ) / (p : ℚ)) : Option (List ℚ)) >>= _ = _
    rw [hstep _ (by simp)]
    show (List.range' (a + 1) cnt).foldlM _
      (((List.range (size - 1)).map fun j =>
        if j < a then initialProbability size numberLower j else 0).set a
        (initialProbability size numberLower a)) = _
    have hset : (((List.range (size - 1)).map fun j =>
        if j < a then initialProbability size numberLower j else 0).set a
        (initialProbability size numberLower a)) =
        ((List.range (size - 1)).map fun j =>
          if j < a + 1 then initialProbability size numberLower j else 0) := by
      rw [set_range_map _ _ (by omega)]
      apply map_range_congr
      intro j hj
      by_cases hja : j = a
      · subst hja
        rw [if_pos rfl, if_pos (by omega)]
      · rw [if_neg hja]
        by_cases hlt : j < a
        · rw [if_pos hlt, if_pos (by omega)]
        · rw [if_neg hlt, if_neg (by omega)]
    rw [hset, show a + (cnt + 1) = a + 1 + cnt by omega]
    exact ih (a + 1) (by omega)

theorem calculateInitialProbabilitiesM_eq (size numberLower : ℕ) (h3 : 3 ≤ size) :
    calculateInitialProbabilitiesM (calculateMatrix size numberLower)
      (calculatePermutations size) (createProbabilities size) size =
    some ((List.range (size - 1)).map fun j =>
      if j < size - 2 then initialProbability size numberLower j else 0) := by
  have hrep : createProbabilities size =
      (List.range (size - 1)).map fun j =>
        if j < 0 then initialProbability size numberLower j else 0 := by
    have h1 : ((List.range (size - 1)).map fun j =>
        if j < 0 then initialProbability size numberLower j else 0) =
        (List.range (size - 1)).map fun _ => (0 : ℚ) :=
      map_range_congr fun j hj => if_neg (by omega)
    rw [h1, List.map_const', List.length_range, createProbabilities,
      getLengthOfProbabilities]
  rw [calculateInitialProbabilitiesM, List.range_eq_range', hrep,
    initProbLoop size numberLower h3 (size - 2) 0 (by omega),
    show 0 + (size - 2) = size - 2 by omega]

theorem calculateFinalProbabilityM_eq (size numberLower : ℕ) (h3 : 3 ≤ size) :
    calculateFinalProbabilityM (calculateMatrix size numberLower)
      (calculatePermutations size)
      ((List.range (size - 1)).map fun j =>
        if j < size - 2 then initialProbability size numberLower j else 0) size =
    some (internalProbabilities size numberLower) := by
  have hrowlen2 : (matrixRow size numberLower (size - 2)).length = 2 := by
    rw [matrixRow_length size numberLower (size - 2) (by omega)]
    omega
  have hpermlen : (calculatePermutations size).length = size - 2 := by
    rw [calculatePermutations, List.length_map, List.length_range,
      getLengthOfPermutations]
  rw [calculateFinalProbabilityM,
    show ((size : ℤ) - 2) = ((size - 2 : ℕ) : ℤ) by omega,
    listGetM_coe _ (size - 2) [] (by rw [calculateMatrix]; simp; omega),
    getD_calculateMatrix size numberLower (size - 2) (by omega)]
  show (do
      let a ← listGetM (matrixRow size numberLower (size - 2)) 0
      let b ← listGetM (matrixRow size numberLower (size - 2)) 1
      let numberShuffles ← getNumberShufflesM (calculatePermutations size) size
      listSetM ((List.range (size - 1)).map fun j =>
          if j < size - 2 then initialProbability size numberLower j else 0)
        (((getLengthOfProbabilities size : ℕ) : ℤ) - 1)
        (((a + b : ℕ) : ℚ) / (numberShuffles : ℚ)) : Option (List ℚ)) = _
  rw [listGetM_zero _ 0 (by omega)]
  show (do
      let b ← listGetM (matrixRow size numberLower (size - 2)) 1
      let numberShuffles ← getNumberShufflesM (calculatePermutations size) size
      listSetM ((List.range (size - 1)).map fun j =>
          if j < size - 2 then initialProbability size numberLower j else 0)
        (((getLengthOfProbabilities size : ℕ) : ℤ) - 1)
        ((((matrixRow size numberLower (size - 2)).getD 0 0 + b : ℕ) : ℚ) /
          (numberShuffles : ℚ)) : Option (List ℚ)) = _
  rw [listGetM_one _ 0 (by omega)]
  show (do
      let numberShuffles ← getNumberShufflesM (calculatePermutations size) size
      listSetM ((List.range (size - 1)).map fun j =>
          if j < size - 2 then initialProbability size numberLower j else 0)
        (((getLengthOfProbabilities size : ℕ) : ℤ) - 1)
        ((((matrixRow size numberLower (size - 2)).getD 0 0 +
            (matrixRow size numberLower (size - 2)).getD 1 0 : ℕ) : ℚ) /
          (numberShuffles : ℚ)) : Option (List ℚ)) = _
  rw [getNumberShufflesM, getLengthOfPermutations,
    show (((size - 2 : ℕ) : ℤ)) - 1 = ((size - 3 : ℕ) : ℤ) by omega,
    listGetM_coe _ (size - 3) 0 (by omega)]
  show listSetM ((List.range (size - 1)).map fun j =>
      if j < size - 2 then initialProbability size numberLower j else 0)
    (((getLengthOfProbabilities size : ℕ) : ℤ) - 1)
    ((((matrixRow size numberLower (size - 2)).getD 0 0 +
        (matrixRow size numberLower (size - 2)).getD 1 0 : ℕ) : ℚ) /
      ((calculatePermutations size).getD (size - 3) 0 : ℚ)) = _
  rw [getLengthOfProbabilities,
    show (((size - 1 : ℕ) : ℤ)) - 1 = ((size - 2 : ℕ) : ℤ) by omega,
    listSetM_coe _ (size - 2) _ (by simp; omega),
    set_range_map _ _ (by omega)]
  congr 1
  rw [internalProbabilities, getLengthOfProbabilities]
  apply map_range_congr
  intro j hj
  by_cases hje : j = size - 2
  · subst hje
    rw [if_pos rfl, if_pos (by omega)]
    rw [finalProbability, getNumberShuffles, getLengthOfPermutations, rowGet, rowGet,
      rowGet, show size - 2 - 1 = size - 3 by omega]
  · rw [if_neg hje, if_pos (by omega : j < size - 2),
      if_neg (by omega : ¬j = size - 1 - 1)]

theorem calculateProbabilitiesM_eq (size numberLower : ℕ) (h3 : 3 ≤ size)
    (hnl : numberLower ≤ size) :
    calculateProbabilitiesM size numberLower =
      some (calculateProbabilities size numberLower) := by
  rw [calculateProbabilitiesM, calculateMatrixM_eq size numberLower h3 hnl]
  show (do
      let permutations ← calculatePermutationsM size
      let probabilities ← calculateInitialProbabilitiesM (calculateMatrix size numberLower)
        permutations (createProbabilities size) size
      let probabilities ← calculateFinalProbabilityM (calculateMatrix size numberLower)
        permutations probabilities size
      pure (convertToNumeratorsAndDenominators (accumulateProbabilities probabilities)) :
        Option (List (ℕ × ℕ))) = _
  rw [calculatePermutationsM_eq size h3]
  show (do
      let probabilities ← calculateInitialProbabilitiesM (calculateMatrix size numberLower)
        (calculatePermutations size) (createProbabilities size) size
      let probabilities ← calculateFinalProbabilityM (calculateMatrix size numberLower)
        (calculatePermutations size) probabilities size
      pure (convertToNumeratorsAndDenominators (accumulateProbabilities probabilities)) :
        Option (List (ℕ × ℕ))) = _
  rw [calculateInitialProbabilitiesM_eq size numberLower h3]
  show (do
      let probabilities ← calculateFinalProbabilityM (calculateMatrix size numberLower)
        (calculatePermutations size)
        ((List.range (size - 1)).map fun j =>
          if j < size - 2 then initialProbability size numberLower j else 0) size
      pure (convertToNumeratorsAndDenominators (accumulateProbabilities probabilities)) :
        Option (List (ℕ × ℕ))) = _
  rw [calculateFinalProbabilityM_eq size numberLower h3]
  rfl

/-! ## Facts about the result vector -/

/-- For `size ≤ 2` the instrumented pipeline always reports an out-of-bounds
access (for `size = 2`, in the permutation table; for smaller sizes already
in the matrix). -/
theorem smallNone (size numberLower : ℕ) (hs : size ≤ 2) (hnl : numberLower ≤ size) :
    calculateProbabilitiesM size numberLower = none := by
  interval_cases size <;> interval_cases numberLower <;> with_unfolding_all decide

theorem length_accumulateProbabilities :
    ∀ L : List ℚ, (accumulateProbabilities L).length = L.length := by
  intro L
  induction L with
  | nil => rfl
  | cons p rest ih => rw [accumulateProbabilities, List.length_cons, List.length_cons, ih]

theorem accumulateProbabilities_getD :
    ∀ (L : List ℚ) (n : ℕ), n < L.length →
      (accumulateProbabilities L).getD n 0 = (L.drop n).sum := by
  intro L
  induction L with
  | nil => intro n hn; simp at hn
  | cons p rest ih =>
    intro n hn
    cases n with
    | zero => rw [accumulateProbabilities]; simp
    | succ n =>
      rw [accumulateProbabilities]
      show (accumulateProbabilities rest).getD n 0 = _
      rw [ih n (by simpa using hn)]
      rfl

theorem internalProbabilities_nonneg (size numberLower : ℕ) :
    ∀ q ∈ internalProbabilities size numberLower, 0 ≤ q := by
  intro q hq
  rw [internalProbabilities] at hq
  obtain ⟨n, hn, rfl⟩ := List.mem_map.mp hq
  split_ifs
  · rw [finalProbability]
    positivity
  · rw [initialProbability]
    positivity

theorem exportFraction (q : ℚ) (hq : 0 ≤ q) :
    ((q.num.toNat : ℕ) : ℚ) / ((q.den : ℕ) : ℚ) = q := by
  have h1 : ((q.num.toNat : ℕ) : ℤ) = q.num := Int.toNat_of_nonneg (Rat.num_nonneg.mpr hq)
  have h2 : ((q.num.toNat : ℕ) : ℚ) = ((q.num : ℤ) : ℚ) := by
    rw [← h1]
    push_cast
    rfl
  rw [h2, Rat.num_div_den]

theorem listSum_eq_finset (row : List ℕ) :
    row.sum = ∑ i in Finset.range row.length, rowGet row i := by
  conv_lhs => rw [← selfMap row]
  rw [listSum_range_map]

theorem listSum_eq_finset_q (L : List ℚ) :
    L.sum = ∑ i in Finset.range L.length, L.getD i 0 := by
  have h1 : (List.range L.length).map (fun i => L.getD i 0) = L := by
    apply List.ext_getElem
    · simp
    · intro n h1 h2
      simp only [List.getElem_map, List.getElem_range]
      rw [List.getD_eq_getElem L 0 h2]
  conv_lhs => rw [← h1]
  rw [listSum_range_map]

/-! ## Counting the transitions (towards mass conservation) -/

theorem sum_ind_Ico_le (a j : ℕ) :
    ∀ b, (∑ t in Finset.Ico a b, if j ≤ t then (1 : ℕ) else 0) = b - max a j := by
  intro b
  induction b with
  | zero => simp
  | succ b ih =>
    by_cases hab : a ≤ b
    · rw [Finset.sum_Ico_succ_top hab, ih]
      by_cases hj : j ≤ b <;> simp [hj] <;> omega
    · rw [Finset.Ico_eq_empty (by omega)]
      simp
      omega

theorem sum_ind_Ico_lt (a j : ℕ) :
    ∀ b, (∑ t in Finset.Ico a b, if t < j then (1 : ℕ) else 0) = min b j - a := by
  intro b
  induction b with
  | zero => simp
  | succ b ih =>
    by_cases hab : a ≤ b
    · rw [Finset.sum_Ico_succ_top hab, ih]
      by_cases hj : b < j <;> simp [hj] <;> omega
    · rw [Finset.Ico_eq_empty (by omega)]
      simp
      omega

theorem sum_ind_Ico_const (a b : ℕ) (P : Prop) [Decidable P] :
    (∑ t in Finset.Ico a b, if P then (1 : ℕ) else 0) = if P then b - a else 0 := by
  by_cases h : P <;> simp [h, Nat.card_Ico]

/-- The key combinatorial identity behind the recurrence: state `i` of the
previous row (with `B` cards remaining) feeds exactly `B - min i (B - i)`
entries of the next row, i.e. one per card whose deal the predictor calls
correctly. -/
theorem pathKL_count (B i : ℕ) (hB : 2 ≤ B) (hi : i ≤ B) :
    (∑ t in Finset.range B,
      ((if i < (pathKL B ((B + 1) / 2) t).1 then (1 : ℕ) else 0) +
        (if (pathKL B ((B + 1) / 2) t).2 ≤ i then (1 : ℕ) else 0))) =
    B - min i (B - i) := by
  rcases Nat.even_or_odd B with ⟨m, hm⟩ | ⟨m, hm⟩
  · -- B = m + m
    subst hm
    have hm1 : 1 ≤ m := by omega
    have hlim : (m + m + 1) / 2 = m := by omega
    have hmod : (m + m) % 2 = 0 := by omega
    have hsplit := Finset.sum_Ico_consecutive
      (fun t => (if i < (pathKL (m + m) ((m + m + 1) / 2) t).1 then (1 : ℕ) else 0) +
        (if (pathKL (m + m) ((m + m + 1) / 2) t).2 ≤ i then (1 : ℕ) else 0))
      (by omega : 0 ≤ m + 1) (by omega : m + 1 ≤ m + m)
    rw [Finset.range_eq_Ico, ← hsplit]
    have h1 : (∑ t in Finset.Ico 0 (m + 1),
        ((if i < (pathKL (m + m) ((m + m + 1) / 2) t).1 then (1 : ℕ) else 0) +
          (if (pathKL (m + m) ((m + m + 1) / 2) t).2 ≤ i then (1 : ℕ) else 0))) =
        (∑ t in Finset.Ico 0 (m + 1), ((if i ≤ t then (1 : ℕ) else 0) +
          (if m + 1 ≤ i then (1 : ℕ) else 0))) := by
      apply Finset.sum_congr rfl
      intro t ht
      obtain ⟨ht0, ht1⟩ := Finset.mem_Ico.mp ht
      rw [pathKL, hlim, if_pos hmod, if_pos (by omega : t ≤ m)]
      congr 1
      all_goals exact if_congr (by omega) rfl rfl
    have h2 : (∑ t in Finset.Ico (m + 1) (m + m),
        ((if i < (pathKL (m + m) ((m + m + 1) / 2) t).1 then (1 : ℕ) else 0) +
          (if (pathKL (m + m) ((m + m + 1) / 2) t).2 ≤ i then (1 : ℕ) else 0))) =
        (∑ t in Finset.Ico (m + 1) (m + m), ((if i ≤ m then (1 : ℕ) else 0) +
          (if t < i then (1 : ℕ) else 0))) := by
      apply Finset.sum_congr rfl
      intro t ht
      obtain ⟨ht0, ht1⟩ := Finset.mem_Ico.mp ht
      rw [pathKL, hlim, if_pos hmod, if_neg (by omega : ¬t ≤ m)]
      congr 1
      all_goals exact if_congr (by omega) rfl rfl
    rw [h1, h2, Finset.sum_add_distrib, Finset.sum_add_distrib,
      sum_ind_Ico_le 0 i (m + 1), sum_ind_Ico_const, sum_ind_Ico_const,
      sum_ind_Ico_lt (m + 1) i (m + m)]
    by_cases hc1 : m + 1 ≤ i <;> by_cases hc2 : i ≤ m <;>
      simp [hc1, hc2, Nat.min_def, Nat.max_def] <;> split_ifs <;> omega
  · -- B = 2 * m + 1
    subst hm
    have hm1 : 1 ≤ m := by omega
    have hlim : (2 * m + 1 + 1) / 2 = m + 1 := by omega
    have hmod : ¬(2 * m + 1) % 2 = 0 := by omega
    have hsplit1 := Finset.sum_Ico_consecutive
      (fun t => (if i < (pathKL (2 * m + 1) ((2 * m + 1 + 1) / 2) t).1 then (1 : ℕ) else 0) +
        (if (pathKL (2 * m + 1) ((2 * m + 1 + 1) / 2) t).2 ≤ i then (1 : ℕ) else 0))
      (by omega : 0 ≤ m + 1) (by omega : m + 1 ≤ 2 * m + 1)
    have hsplit2 := Finset.sum_Ico_consecutive
      (fun t => (if i < (pathKL (2 * m + 1) ((2 * m + 1 + 1) / 2) t).1 then (1 : ℕ) else 0) +
        (if (pathKL (2 * m + 1) ((2 * m + 1 + 1) / 2) t).2 ≤ i then (1 : ℕ) else 0))
      (by omega : m + 1 ≤ m + 2) (by omega : m + 2 ≤ 2 * m + 1)
    rw [Finset.range_eq_Ico, ← hsplit1, ← hsplit2]
    have h1 : (∑ t in Finset.Ico 0 (m + 1),
        ((if i < (pathKL (2 * m + 1) ((2 * m + 1 + 1) / 2) t).1 then (1 : ℕ) else 0) +
          (if (pathKL (2 * m + 1) ((2 * m + 1 + 1) / 2) t).2 ≤ i then (1 : ℕ) else 0))) =
        (∑ t in Finset.Ico 0 (m + 1), ((if i ≤ t then (1 : ℕ) else 0) +
          (if m + 1 ≤ i then (1 : ℕ) else 0))) := by
      apply Finset.sum_congr rfl
      intro t ht
      obtain ⟨ht0, ht1⟩ := Finset.mem_Ico.mp ht
      rw [pathKL, hlim, if_neg hmod, if_pos (by omega : t < m + 1)]
      congr 1
      all_goals exact if_congr (by omega) rfl rfl
    have h2 : (∑ t in Finset.Ico (m + 1) (m + 2),
        ((if i < (pathKL (2 * m + 1) ((2 * m + 1 + 1) / 2) t).1 then (1 : ℕ) else 0) +
          (if (pathKL (2 * m + 1) ((2 * m + 1 + 1) / 2) t).2 ≤ i then (1 : ℕ) else 0))) =
        (∑ t in Finset.Ico (m + 1) (m + 2), ((if i < m + 1 then (1 : ℕ) else 0) +
          (if m + 2 ≤ i then (1 : ℕ) else 0))) := by
      apply Finset.sum_congr rfl
      intro t ht
      obtain ⟨ht0, ht1⟩ := Finset.mem_Ico.mp ht
      have htm : t = m + 1 := by omega
      subst htm
      rw [pathKL, hlim, if_neg hmod, if_neg (by omega : ¬m + 1 < m + 1),
        if_pos rfl]
    have h3 : (∑ t in Finset.Ico (m + 2) (2 * m + 1),
        ((if i < (pathKL (2 * m + 1) ((2 * m + 1 + 1) / 2) t).1 then (1 : ℕ) else 0) +
          (if (pathKL (2 * m + 1) ((2 * m + 1 + 1) / 2) t).2 ≤ i then (1 : ℕ) else 0))) =
        (∑ t in Finset.Ico (m + 2) (2 * m + 1), ((if i < m + 1 then (1 : ℕ) else 0) +
          (if t < i then (1 : ℕ) else 0))) := by
      apply Finset.sum_congr rfl
      intro t ht
      obtain ⟨ht0, ht1⟩ := Finset.mem_Ico.mp ht
      rw [pathKL, hlim, if_neg hmod, if_neg (by omega : ¬t < m + 1),
        if_neg (by omega : ¬t = m + 1)]
      congr 1
      all_goals exact if_congr (by omega) rfl rfl
    rw [h1, h2, h3, Finset.sum_add_distrib, Finset.sum_add_distrib,
      Finset.sum_add_distrib, sum_ind_Ico_le 0 i (m + 1),
      sum_ind_Ico_const, sum_ind_Ico_const, sum_ind_Ico_const, sum_ind_Ico_const,
      sum_ind_Ico_lt (m + 2) i (2 * m + 1)]
    by_cases hc1 : m + 1 ≤ i <;> by_cases hc2 : i < m + 1 <;> by_cases hc3 : m + 2 ≤ i <;>
      simp [hc1, hc2, hc3, Nat.min_def, Nat.max_def] <;> split_ifs <;> omega

theorem matrixEntry_recurrence (size numberLower s t : ℕ)
    (hs1 : 1 ≤ s) (hs2 : s ≤ size - 2) (ht : t < size - s) :
    rowGet (matrixRow size numberLower s) t =
      (∑ i in Finset.range (pathKL (size - s) ((size - s + 1) / 2) t).1,
        rowGet (matrixRow size numberLower (s - 1)) i) +
      ∑ i in Finset.Icc (pathKL (size - s) ((size - s + 1) / 2) t).2 (size - s),
        rowGet (matrixRow size numberLower (s - 1)) i := by
  obtain ⟨p, rfl⟩ : ∃ p, s = p + 1 := ⟨s - 1, by omega⟩
  have hsz : 3 ≤ size := by omega
  rw [matrixRow, initialiseStage,
    rowGet_range_map _ (by unfold getNumberCardsLeftAfterDealing; omega),
    getNumberPathsLeadingTo]
  have hprev : p + 1 - 1 = p := by omega
  have hB : getNumberCardsLeftAfterDealing size p = size - (p + 1) := by
    unfold getNumberCardsLeftAfterDealing
    omega
  simp only [hprev, hB]
  rw [listSum_range_map, listSum_shift_map]
  have hkl := pathKL_le (size - (p + 1)) t (by omega) (by omega)
  have harith : (pathKL (size - (p + 1)) ((size - (p + 1) + 1) / 2) t).2 +
      (size - (p + 1) + 1 - (pathKL (size - (p + 1)) ((size - (p + 1) + 1) / 2) t).2) =
      size - (p + 1) + 1 := by
    omega
  rw [harith, ← Nat.Ico_succ_right]

theorem sum_guard_lt (f : ℕ → ℕ) (k n : ℕ) (hk : k ≤ n) :
    (∑ i in Finset.range n, if i < k then f i else 0) = ∑ i in Finset.range k, f i := by
  rw [← Finset.sum_filter]
  congr 1
  ext x
  simp only [Finset.mem_filter, Finset.mem_range]
  omega

theorem sum_guard_ge (f : ℕ → ℕ) (l B : ℕ) :
    (∑ i in Finset.range (B + 1), if l ≤ i then f i else 0) = ∑ i in Finset.Icc l B, f i := by
  rw [← Finset.sum_filter]
  congr 1
  ext x
  simp only [Finset.mem_filter, Finset.mem_range, Finset.mem_Icc]
  omega

theorem rowSum_succ (size numberLower s : ℕ) (hs1 : 1 ≤ s) (hs2 : s ≤ size - 2) :
    (∑ t in Finset.range (size - s), rowGet (matrixRow size numberLower s) t) =
    ∑ i in Finset.range (size - s + 1),
      rowGet (matrixRow size numberLower (s - 1)) i *
        ((size - s) - min i ((size - s) - i)) := by
  have hB2 : 2 ≤ size - s := by omega
  have hentry : ∀ t ∈ Finset.range (size - s),
      rowGet (matrixRow size numberLower s) t =
      ∑ i in Finset.range (size - s + 1),
        ((if i < (pathKL (size - s) ((size - s + 1) / 2) t).1
            then rowGet (matrixRow size numberLower (s - 1)) i else 0) +
          (if (pathKL (size - s) ((size - s + 1) / 2) t).2 ≤ i
            then rowGet (matrixRow size numberLower (s - 1)) i else 0)) := by
    intro t ht
    have ht2 := Finset.mem_range.mp ht
    have hkl := pathKL_le (size - s) t (by omega) (by omega)
    rw [matrixEntry_recurrence size numberLower s t hs1 hs2 ht2,
      Finset.sum_add_distrib,
      sum_guard_lt (fun i => rowGet (matrixRow size numberLower (s - 1)) i) _ _ (by omega),
      sum_guard_ge (fun i => rowGet (matrixRow size numberLower (s - 1)) i) _ (size - s)]
  rw [Finset.sum_congr rfl hentry, Finset.sum_comm]
  apply Finset.sum_congr rfl
  intro i hi
  have hiB : i ≤ size - s := by
    have := Finset.mem_range.mp hi
    omega
  have hfac : ∀ t : ℕ,
      ((if i < (pathKL (size - s) ((size - s + 1) / 2) t).1
          then rowGet (matrixRow size numberLower (s - 1)) i else 0) +
        (if (pathKL (size - s) ((size - s + 1) / 2) t).2 ≤ i
          then rowGet (matrixRow size numberLower (s - 1)) i else 0)) =
      rowGet (matrixRow size numberLower (s - 1)) i *
        ((if i < (pathKL (size - s) ((size - s + 1) / 2) t).1 then (1 : ℕ) else 0) +
          (if (pathKL (size - s) ((size - s + 1) / 2) t).2 ≤ i then (1 : ℕ) else 0)) := by
    intro t
    split_ifs <;> ring
  rw [Finset.sum_congr rfl fun t ht => hfac t, ← Finset.mul_sum,
    pathKL_count (size - s) i hB2 hiB]

theorem failSum_eq (size numberLower n : ℕ) (hn : n + 3 ≤ size) :
    failSum size numberLower n =
      ∑ i in Finset.range (size - n), rowGet (matrixRow size numberLower n) i *
        min i ((size - n - 1) - i) := by
  rw [failSum, listSum_range_map]
  apply Finset.sum_congr rfl
  intro lc hlc
  congr 1
  rw [numberFailingCards]
  show (if size - n - lc - 1 ≥ lc then lc else size - n - lc - 1) = _
  rw [min_def]
  have h1 : size - n - lc - 1 = size - n - 1 - lc := by omega
  by_cases h : lc ≤ size - n - 1 - lc
  · rw [if_pos (by omega), if_pos h]
  · rw [if_neg (by omega), if_neg h, h1]

theorem failSum_add_rowSum (size numberLower n : ℕ) (hn : n + 3 ≤ size) :
    failSum size numberLower n +
      (∑ t in Finset.range (size - (n + 1)), rowGet (matrixRow size numberLower (n + 1)) t) =
    (size - n - 1) * ∑ i in Finset.range (size - n), rowGet (matrixRow size numberLower n) i := by
  have hs := rowSum_succ size numberLower (n + 1) (by omega) (by omega)
  simp only [Nat.add_sub_cancel] at hs
  rw [failSum_eq size numberLower n hn, hs,
    show size - (n + 1) = size - n - 1 by omega,
    show size - n - 1 + 1 = size - n by omega, ← Finset.sum_add_distrib,
    Finset.mul_sum]
  apply Finset.sum_congr rfl
  intro i hi
  have hM : min i (size - n - 1 - i) ≤ size - n - 1 :=
    le_trans (Nat.min_le_right _ _) (by omega)
  rw [← Nat.mul_add]
  rw [show min i (size - n - 1 - i) + (size - n - 1 - min i (size - n - 1 - i)) =
    size - n - 1 by omega]
  exact Nat.mul_comm _ _

theorem permEntry_pos (size : ℕ) : ∀ m, m + 2 ≤ size → 0 < permEntry size m := by
  intro m
  induction m with
  | zero =>
    intro h
    rw [permEntry]
    exact Nat.mul_pos (by omega) (by omega)
  | succ m ih =>
    intro h
    rw [permEntry]
    exact Nat.mul_pos (ih (by omega)) (by omega)

theorem div_sub_div_helper (s b S0 S1 : ℚ) (hs : s ≠ 0) (hb : b ≠ 0) :
    (b * S0 - S1) / (s * b) = S0 / s - S1 / (s * b) := by
  field_simp
  ring

/-- Mass conservation for the per-stage vector: the per-stage fail
probabilities together with the final probability sum to
`(Σ_i pathCount[0][i]) / size`, the probability that the very first
prediction is correct. -/
theorem internal_sum_eq (size numberLower : ℕ) (h3 : 3 ≤ size) :
    (internalProbabilities size numberLower).sum =
      ((∑ i in Finset.range size, rowGet (matrixRow size numberLower 0) i : ℕ) : ℚ) /
        (size : ℚ) := by
  have hcast : ∀ n, n < size - 2 →
      (failSum size numberLower n : ℚ) =
        ((size - n - 1 : ℕ) : ℚ) * (stageRowSum size numberLower n : ℚ) -
          (stageRowSum size numberLower (n + 1) : ℚ) := by
    intro n hn
    have h1n : failSum size numberLower n + stageRowSum size numberLower (n + 1) =
        (size - n - 1) * stageRowSum size numberLower n :=
      failSum_add_rowSum size numberLower n (by omega)
    have h2 := congrArg (fun x : ℕ => (x : ℚ)) h1n
    push_cast at h2
    push_cast
    linarith
  have hP : ∀ n, n < size - 2 →
      initialProbability size numberLower n =
        telescopeQ size numberLower n - telescopeQ size numberLower (n + 1) := by
    intro n hn
    rw [initialProbability, rowGet_calculatePermutations size n hn, hcast n hn]
    rcases Nat.eq_zero_or_pos n with rfl | hn1
    · have hq0 : telescopeQ size numberLower 0 =
          (stageRowSum size numberLower 0 : ℚ) / (size : ℚ) := by
        rw [telescopeQ, if_pos rfl]
      have hq1 : telescopeQ size numberLower 1 =
          (stageRowSum size numberLower 1 : ℚ) / ((permEntry size 0 : ℕ) : ℚ) := by
        rw [telescopeQ, if_neg (by omega)]
      have hpe0 : permEntry size 0 = size * (size - 1) := rfl
      have hz1 : ((size : ℕ) : ℚ) ≠ 0 := Nat.cast_ne_zero.mpr (by omega)
      have hz2 : ((size - 1 : ℕ) : ℚ) ≠ 0 := Nat.cast_ne_zero.mpr (by omega)
      rw [hq0, hq1, hpe0, show size - 0 - 1 = size - 1 by omega, Nat.cast_mul]
      exact div_sub_div_helper _ _ _ _ hz1 hz2
    · obtain ⟨p, rfl⟩ : ∃ p, n = p + 1 := ⟨n - 1, by omega⟩
      have hqn : telescopeQ size numberLower (p + 1) =
          (stageRowSum size numberLower (p + 1) : ℚ) / ((permEntry size p : ℕ) : ℚ) := by
        rw [telescopeQ, if_neg (by omega)]
        rfl
      have hqn2 : telescopeQ size numberLower (p + 1 + 1) =
          (stageRowSum size numberLower (p + 2) : ℚ) /
            ((permEntry size (p + 1) : ℕ) : ℚ) := by
        rw [telescopeQ, if_neg (by omega)]
        rfl
      have hperm : permEntry size (p + 1) = permEntry size p * (size - (p + 1) - 1) := rfl
      have hppos := permEntry_pos size p (by omega)
      have hz1 : ((permEntry size p : ℕ) : ℚ) ≠ 0 := Nat.cast_ne_zero.mpr (by omega)
      have hz2 : ((size - (p + 1) - 1 : ℕ) : ℚ) ≠ 0 := Nat.cast_ne_zero.mpr (by omega)
      rw [hqn, hqn2, hperm, Nat.cast_mul]
      exact div_sub_div_helper _ _ _ _ hz1 hz2
  have hfinal : finalProbability size numberLower = telescopeQ size numberLower (size - 2) := by
    rw [finalProbability, getNumberShuffles, getLengthOfPermutations,
      show size - 2 - 1 = size - 3 by omega,
      rowGet_calculatePermutations size (size - 3) (by omega),
      telescopeQ, if_neg (by omega : ¬size - 2 = 0)]
    have hs2 : stageRowSum size numberLower (size - 2) =
        rowGet (matrixRow size numberLower (size - 2)) 0 +
          rowGet (matrixRow size numberLower (size - 2)) 1 := by
      rw [stageRowSum, show size - (size - 2) = 2 by omega, Finset.sum_range_succ,
        Finset.sum_range_one]
    rw [hs2, show size - 2 - 1 = size - 3 by omega]
  rw [internalProbabilities, listSum_range_map]
  simp only [getLengthOfProbabilities]
  have hc0 : ∀ n ∈ Finset.range (size - 1),
      (if n = size - 1 - 1 then finalProbability size numberLower
        else initialProbability size numberLower n) =
      (if n = size - 2 then finalProbability size numberLower
        else initialProbability size numberLower n) :=
    fun n hn => if_congr (by omega) rfl rfl
  rw [Finset.sum_congr rfl hc0,
    show Finset.range (size - 1) = Finset.range (size - 2 + 1) by
      rw [show size - 1 = size - 2 + 1 by omega],
    Finset.sum_range_succ]
  have hcond1 : ∀ n ∈ Finset.range (size - 2),
      (if n = size - 2 then finalProbability size numberLower
        else initialProbability size numberLower n) =
      telescopeQ size numberLower n - telescopeQ size numberLower (n + 1) := by
    intro n hn
    have hn2 := Finset.mem_range.mp hn
    rw [if_neg (by omega), hP n hn2]
  have hcond2 : (if size - 2 = size - 2 then finalProbability size numberLower
      else initialProbability size numberLower (size - 2)) =
      finalProbability size numberLower := if_pos rfl
  rw [Finset.sum_congr rfl hcond1, hcond2,
    Finset.sum_range_sub' (telescopeQ size numberLower) (size - 2), hfinal,
    sub_add_cancel, telescopeQ, if_pos rfl, stageRowSum, Nat.sub_zero]

/-! ## The brute-force oracle and its pruned evaluation agree -/

theorem length_deck (size : ℕ) : (deck size).length = size := by
  simp [deck]

theorem length_allDeals (m : ℕ) :
    ∀ remaining : List ℕ, (allDeals remaining m).length = remaining.length.descFactorial m := by
  induction m with
  | zero => intro remaining; simp [allDeals]
  | succ m ih =>
    intro remaining
    rw [allDeals, List.length_flatMap]
    simp only [Function.comp_def, List.length_map]
    have h1 : (remaining.map fun c => (allDeals (remaining.erase c) m).length)
        = remaining.map fun _ => (remaining.length - 1).descFactorial m := by
      apply List.map_congr_left
      intro c hc
      rw [ih, List.length_erase_of_mem hc]
    rw [h1, List.map_const']
    rcases remaining with _ | ⟨a, l⟩
    · simp
    · rw [List.sum_replicate, smul_eq_mul, List.length_cons, Nat.add_sub_cancel,
        Nat.succ_descFactorial_succ]

theorem bruteFilter_eq_fcCount (m : ℕ) :
    ∀ (remaining : List ℕ) (t lc : ℕ),
      ((allDeals remaining m).filter fun d =>
        allCorrect remaining t d && decide (finalLower remaining t d = lc)).length =
      fcCount remaining t m lc := by
  induction m with
  | zero =>
    intro remaining t lc
    rw [fcCount]
    by_cases h : countLower remaining t = lc <;>
      simp [allDeals, allCorrect, finalLower, h, List.filter]
  | succ m ih =>
    intro remaining t lc
    rw [allDeals, fcCount, List.filter_flatMap, List.length_flatMap]
    congr 1
    apply List.map_congr_left
    intro c hc
    simp only [Function.comp_def]
    rw [List.filter_map, List.length_map]
    simp only [Function.comp_def]
    cases hdc : dealCorrect remaining t c with
    | false =>
      have hall : ∀ d (hd : d ∈ allDeals (remaining.erase c) m),
          (allCorrect remaining t (c :: d) &&
            decide (finalLower remaining t (c :: d) = lc)) = false := by
        intro d hd; simp [allCorrect, hdc]
      rw [List.filter_congr hall]
      simp [hdc]
    | true =>
      have heq : ∀ d (hd : d ∈ allDeals (remaining.erase c) m),
          (allCorrect remaining t (c :: d) &&
            decide (finalLower remaining t (c :: d) = lc)) =
          (allCorrect (remaining.erase c) c d &&
            decide (finalLower (remaining.erase c) c d = lc)) := by
        intro d hd; simp [allCorrect, finalLower, hdc]
      rw [List.filter_congr heq, ih]
      simp [hdc]

theorem bruteCount_eq_fcCount (size numberLower stage lc : ℕ) :
    bruteCount size numberLower stage lc =
      fcCount (deck size) (initialThreshold numberLower) (stage + 1) lc := by
  rw [bruteCount, bruteFilter_eq_fcCount]

theorem bruteCorrectFilter_eq_fcAll (m : ℕ) :
    ∀ (remaining : List ℕ) (t : ℕ),
      ((allDeals remaining m).filter fun d => allCorrect remaining t d).length =
        fcAll remaining t m := by
  induction m with
  | zero => intro remaining t; simp [allDeals, fcAll, allCorrect, List.filter]
  | succ m ih =>
    intro remaining t
    rw [allDeals, fcAll, List.filter_flatMap, List.length_flatMap]
    congr 1
    apply List.map_congr_left
    intro c hc
    simp only [Function.comp_def]
    rw [List.filter_map, List.length_map]
    simp only [Function.comp_def]
    cases hdc : dealCorrect remaining t c with
    | false =>
      have hall : ∀ d (hd : d ∈ allDeals (remaining.erase c) m),
          allCorrect remaining t (c :: d) = false := by
        intro d hd; simp [allCorrect, hdc]
      rw [List.filter_congr hall]
      simp [hdc]
    | true =>
      have heq : ∀ d (hd : d ∈ allDeals (remaining.erase c) m),
          allCorrect remaining t (c :: d) = allCorrect (remaining.erase c) c d := by
        intro d hd; simp [allCorrect, hdc]
      rw [List.filter_congr heq, ih]
      simp [hdc]

theorem bruteCorrect_eq_fcAll (size numberLower m : ℕ) :
    bruteCorrect size numberLower m = fcAll (deck size) (initialThreshold numberLower) m := by
  rw [bruteCorrect, bruteCorrectFilter_eq_fcAll]

theorem bruteResults_eval (size numberLower : ℕ) :
    bruteResults size numberLower =
      (List.range (size - 1)).map fun n =>
        (((fcAll (deck size) (initialThreshold numberLower) (n + 1) : ℚ) /
            (size.descFactorial (n + 1) : ℚ)).num.toNat,
         ((fcAll (deck size) (initialThreshold numberLower) (n + 1) : ℚ) /
            (size.descFactorial (n + 1) : ℚ)).den) := by
  unfold bruteResults
  simp only [bruteCorrect_eq_fcAll, length_allDeals, length_deck]

set_option maxHeartbeats 4000000 in
/-- Claim C1: for every initial state with `2 ≤ size ≤ 7` and
`0 ≤ numberLower ≤ size`, every entry `matrix[stage][lowerCount]` produced by
`calculateMatrix` equals the number of ordered deals of `stage + 1` cards
from a labeled deck consistent with the `(size, numberLower)`
characterisation at which the majority-rule predictor was correct at every
deal (obtained by exhaustive enumeration, `bruteCount`), and the exact
reduced fractions returned by `calculateProbabilities` equal the
corresponding brute-force ratios (`bruteResults`); the second conjunct is
phrased through `Option.getD` so that it asserts equality of whatever the
(bounds-checked) pipeline returns. -/
theorem c1_bruteforce_equivalence_sizes_2_to_7 (size numberLower : ℕ)
    (h2 : 2 ≤ size) (h7 : size ≤ 7) (hnl : numberLower ≤ size) :
    (∀ stage < size - 1, ∀ lc < size - stage,
      rowGet ((calculateMatrix size numberLower).getD stage []) lc =
        bruteCount size numberLower stage lc) ∧
    (calculateProbabilitiesM size numberLower).getD (bruteResults size numberLower) =
      bruteResults size numberLower := by
  simp only [bruteCount_eq_fcCount, bruteResults_eval]
  interval_cases size <;> interval_cases numberLower <;> with_unfolding_all decide

/-- Witness for C1 at the concrete input `size = 3`, `numberLower = 1`. -/
theorem c1_bruteforce_equivalence_sizes_2_to_7_witness :
    (2 ≤ 3 ∧ 3 ≤ 7 ∧ 1 ≤ 3) ∧
    ((∀ stage < 3 - 1, ∀ lc < 3 - stage,
      rowGet ((calculateMatrix 3 1).getD stage []) lc = bruteCount 3 1 stage lc) ∧
    (calculateProbabilitiesM 3 1).getD (bruteResults 3 1) = bruteResults 3 1) :=
  ⟨by decide, c1_bruteforce_equivalence_sizes_2_to_7 3 1 (by decide) (by decide) (by decide)⟩

/-- Claim C2: `calculateProbabilities` with `size = 3`, `numberLower = 1`
returns exactly the two pairs `(2, 3)` then `(1, 2)`; internally the stage-0
path-count row is `[0, 1, 1]`, the stage-1 row is `[1, 2]`, the permutation
table is `[6]`, the per-stage fail probability at index 0 is `1/6`, the final
probability is `1/2`, and after cumulative accumulation index 0 holds `2/3`. -/
theorem c2_worked_scenario_size3_lower1 :
    calculateProbabilitiesM 3 1 = some [(2, 3), (1, 2)] ∧
    matrixRow 3 1 0 = [0, 1, 1] ∧
    matrixRow 3 1 1 = [1, 2] ∧
    calculatePermutations 3 = [6] ∧
    initialProbability 3 1 0 = 1 / 6 ∧
    finalProbability 3 1 = 1 / 2 ∧
    (resultVector 3 1).getD 0 0 = 2 / 3 := by
  with_unfolding_all decide

/-- Claim C10 (the code contradicts it): `calculateProbabilities` performs no
input validation. At the invalid input `size = 3`, `numberLower = 4` it does
not reject: it builds the stage-0 path-count row (the loop of
`initialiseFirstStage` runs with `k = 0`, `l = 4` and its first three writes
land, as witnessed by `writeOnes`; its fourth write is out of the row's
bounds, which is where the instrumented pipeline reports `none` — not a
rejection), and the total embedding returns a full-length result vector with
no error value. -/
theorem c10_no_input_validation_table_still_built :
    calculateProbabilitiesM 3 4 = none ∧
    initialiseFirstStageM (createMatrix 3) 3 4 = none ∧
    firstStageKL 3 4 = (0, 4) ∧
    writeOnes (List.replicate 3 0) 0 3 = some [1, 1, 1] ∧
    matrixRow 3 4 0 = [1, 1, 1] ∧
    (calculateProbabilities 3 4).length = 2 := by
  with_unfolding_all decide

/-- Claim C5 (counterexample): at `size = 2` with the valid
`numberLower = 1 ∈ [0, 2]`, the out-of-range branch of the instrumented
embedding *is* reached: `calculatePermutations` attempts the write
`permutations[0]` into the zero-length table (it is guarded only by
`size > 0`), `getNumberShuffles` attempts the read
`permutations[lengthOfPermutations - 1]`, i.e. index `-1`, and the whole
pipeline returns `none`. -/
theorem c5_counterexample_size2_out_of_bounds :
    calculateProbabilitiesM 2 1 = none ∧
    calculatePermutationsM 2 = none ∧
    getLengthOfPermutations 2 = 0 ∧
    getNumberShufflesM (createPermutations 2) 2 = none := by
  with_unfolding_all decide

/-- Claim C6 (counterexample): at `size = 3`, `numberLower = 1` the sum of
the entries of the *returned cumulative* vector is `2/3 + 1/2 = 7/6`, which
differs from `(Σ_i pathCount[0][i]) / size = 2/3` (the probability that the
first prediction is correct); the conservation law holds for the per-stage
vector before accumulation, not for the returned cumulative vector. -/
theorem c6_counterexample_cumulative_sum_exceeds_mass :
    calculateProbabilitiesM 3 1 =
      some (convertToNumeratorsAndDenominators (resultVector 3 1)) ∧
    (resultVector 3 1).sum = 7 / 6 ∧
    ((matrixRow 3 1 0).sum : ℚ) / 3 = 2 / 3 ∧
    (resultVector 3 1).sum ≠ ((matrixRow 3 1 0).sum : ℚ) / 3 := by
  with_unfolding_all decide

/-! ## The transition rule matches the specification's case split (C3) -/

theorem specLimit_eq (before : ℕ) : specLimit before = (before + 1) / 2 := by
  rcases Nat.even_or_odd before with ⟨m, hm⟩ | ⟨m, hm⟩
  · subst hm
    have h1 : ((m + m : ℕ) : ℚ) / 2 = (m : ℚ) := by push_cast; ring
    rw [specLimit, h1, Nat.ceil_natCast]
    omega
  · subst hm
    have h1 : specLimit (2 * m + 1) = m + 1 := by
      rw [specLimit, Nat.ceil_eq_iff (by omega)]
      constructor
      · push_cast
        rw [lt_div_iff₀ (by norm_num)]
        ring_nf
        linarith
      · push_cast
        rw [div_le_iff₀ (by norm_num)]
        linarith
    rw [h1]
    omega

theorem pathKL_eq_specKL (before t : ℕ) :
    pathKL before ((before + 1) / 2) t = specKL before t := by
  rw [specKL, specLimit_eq, pathKL]
  rcases Nat.even_or_odd before with h | h
  · rw [if_pos h, if_pos (Nat.even_iff.mp h)]
  · have h1 : ¬before % 2 = 0 := by
      have := Nat.odd_iff.mp h
      omega
    have h2 : ¬Even before := by
      rw [Nat.even_iff]
      exact h1
    rw [if_neg h1, if_neg h2]

/-- Claim C3: for every stage `s ≥ 1` and target lower-count `t` in range,
the path-count table entry at `(s, t)` is the sum of the previous row over
`[0, k)` plus `[l, before]`, where `before = size - s`,
`limit = ceil(before / 2)` (a genuine ceiling, `specLimit`), and `(k, l)` are
given by exactly the specification's case split (`specKL`). -/
theorem c3_transition_case_split (size numberLower s t : ℕ)
    (hs1 : 1 ≤ s) (hs2 : s ≤ size - 2) (ht : t < size - s) :
    rowGet (matrixRow size numberLower s) t =
      (∑ i in Finset.range (specKL (size - s) t).1,
        rowGet (matrixRow size numberLower (s - 1)) i) +
      ∑ i in Finset.Icc (specKL (size - s) t).2 (size - s),
        rowGet (matrixRow size numberLower (s - 1)) i := by
  obtain ⟨p, rfl⟩ : ∃ p, s = p + 1 := ⟨s - 1, by omega⟩
  have hsz : 3 ≤ size := by omega
  rw [matrixRow, initialiseStage,
    rowGet_range_map _ (by unfold getNumberCardsLeftAfterDealing; omega),
    getNumberPathsLeadingTo]
  have hprev : p + 1 - 1 = p := by omega
  have hB : getNumberCardsLeftAfterDealing size p = size - (p + 1) := by
    unfold getNumberCardsLeftAfterDealing
    omega
  simp only [hprev, hB, pathKL_eq_specKL]
  rw [listSum_range_map, listSum_shift_map]
  have hl : (specKL (size - (p + 1)) t).2 ≤ size - (p + 1) + 1 := by
    have hlim : specLimit (size - (p + 1)) ≤ size - (p + 1) := by
      rw [specLimit_eq]
      omega
    rw [specKL]
    split_ifs <;> simp <;> omega
  have harith : (specKL (size - (p + 1)) t).2 +
      (size - (p + 1) + 1 - (specKL (size - (p + 1)) t).2) = size - (p + 1) + 1 := by
    omega
  rw [harith, ← Nat.Ico_succ_right]

/-- Witness for C3 at the concrete input `size = 4`, `numberLower = 2`,
`s = 1`, `t = 1`. -/
theorem c3_transition_case_split_witness :
    (1 ≤ 1 ∧ 1 ≤ 4 - 2 ∧ 1 < 4 - 1) ∧
    rowGet (matrixRow 4 2 1) 1 =
      (∑ i in Finset.range (specKL (4 - 1) 1).1, rowGet (matrixRow 4 2 (1 - 1)) i) +
      ∑ i in Finset.Icc (specKL (4 - 1) 1).2 (4 - 1), rowGet (matrixRow 4 2 (1 - 1)) i :=
  ⟨by decide, c3_transition_case_split 4 2 1 1 (by decide) (by decide) (by decide)⟩

/-! ## Stage-0 initialisation (C4) -/

/-- Claim C4: after stage-0 initialisation with `numberHigher = size -
numberLower`: if `numberHigher ≥ numberLower`, row 0 of the table holds 1
exactly at the indices `numberLower ≤ i ≤ size - 1` and 0 elsewhere;
otherwise it holds 1 exactly at `0 ≤ i ≤ numberLower - 1` and 0 elsewhere. -/
theorem c4_first_stage_characterisation (size numberLower : ℕ)
    (h2 : 2 ≤ size) (hnl : numberLower ≤ size) :
    (size - numberLower ≥ numberLower →
      ∀ i < size, rowGet ((calculateMatrix size numberLower).getD 0 []) i =
        if numberLower ≤ i ∧ i ≤ size - 1 then 1 else 0) ∧
    (size - numberLower < numberLower →
      ∀ i < size, rowGet ((calculateMatrix size numberLower).getD 0 []) i =
        if i ≤ numberLower - 1 then 1 else 0) := by
  have hrow0 : (calculateMatrix size numberLower).getD 0 [] =
      initialiseFirstStage size numberLower := by
    rw [calculateMatrix, listGetD_range_map _ _ (by omega)]
    rfl
  rw [hrow0]
  constructor
  · intro hge i hi
    rw [initialiseFirstStage, rowGet_range_map _ hi]
    have hkl : firstStageKL size numberLower = (numberLower, size) := by
      simp [firstStageKL, hge]
    rw [hkl]
    refine if_congr ?_ rfl rfl
    show (numberLower ≤ i ∧ i < size) ↔ _
    omega
  · intro hlt i hi
    rw [initialiseFirstStage, rowGet_range_map _ hi]
    have hkl : firstStageKL size numberLower = (0, numberLower) := by
      simp only [firstStageKL, ge_iff_le]
      rw [if_neg (by omega)]
    rw [hkl]
    refine if_congr ?_ rfl rfl
    show (0 ≤ i ∧ i < numberLower) ↔ _
    omega

/-! ## Facts about dropped suffixes of the per-stage vector -/

theorem length_internalProbabilities (size numberLower : ℕ) :
    (internalProbabilities size numberLower).length = size - 1 := by
  rw [internalProbabilities, List.length_map, List.length_range, getLengthOfProbabilities]

theorem getD_map_of_lt {α β : Type} (f : α → β) (l : List α) (n : ℕ) (d : β) (d2 : α)
    (hn : n < l.length) : (l.map f).getD n d = f (l.getD n d2) := by
  rw [List.getD_eq_getElem _ d (by rw [List.length_map]; exact hn), List.getElem_map,
    List.getD_eq_getElem l d2 hn]

theorem result_getD (size numberLower k : ℕ) (hk : k < size - 1) :
    (calculateProbabilities size numberLower).getD k (0, 1) =
      ((((internalProbabilities size numberLower).drop k).sum.num.toNat : ℕ),
        ((internalProbabilities size numberLower).drop k).sum.den) := by
  have hilen : (internalProbabilities size numberLower).length = size - 1 :=
    length_internalProbabilities size numberLower
  have hrvlen : (resultVector size numberLower).length = size - 1 := by
    rw [resultVector, length_accumulateProbabilities, hilen]
  have hacc2 : (resultVector size numberLower).getD k 0 =
      ((internalProbabilities size numberLower).drop k).sum :=
    accumulateProbabilities_getD (internalProbabilities size numberLower) k (by omega)
  rw [calculateProbabilities, convertToNumeratorsAndDenominators,
    getD_map_of_lt _ _ k (0, 1) 0 (by rw [hrvlen]; omega), hacc2]

theorem dropSum_nonneg (size numberLower k : ℕ) :
    0 ≤ ((internalProbabilities size numberLower).drop k).sum :=
  List.sum_nonneg fun q hq =>
    internalProbabilities_nonneg size numberLower q (List.drop_subset _ _ hq)

theorem dropSum_mono (size numberLower n : ℕ)
    (hn : n < (internalProbabilities size numberLower).length) :
    ((internalProbabilities size numberLower).drop (n + 1)).sum ≤
      ((internalProbabilities size numberLower).drop n).sum := by
  rw [List.drop_eq_getElem_cons hn, List.sum_cons]
  have h0 : 0 ≤ (internalProbabilities size numberLower)[n] :=
    internalProbabilities_nonneg size numberLower _ (List.getElem_mem hn)
  linarith

theorem dropSum_le_total (size numberLower k : ℕ) :
    ((internalProbabilities size numberLower).drop k).sum ≤
      (internalProbabilities size numberLower).sum := by
  have h := List.sum_take_add_sum_drop (internalProbabilities size numberLower) k
  have h0 : 0 ≤ ((internalProbabilities size numberLower).take k).sum :=
    List.sum_nonneg fun q hq =>
      internalProbabilities_nonneg size numberLower q (List.take_subset _ _ hq)
  linarith

theorem row0_sum_le (size numberLower : ℕ) :
    (∑ i in Finset.range size, rowGet (matrixRow size numberLower 0) i) ≤ size := by
  have h1 : ∀ i ∈ Finset.range size, rowGet (matrixRow size numberLower 0) i ≤ 1 := by
    intro i hi
    rw [matrixRow, initialiseFirstStage, rowGet_range_map _ (Finset.mem_range.mp hi)]
    split_ifs <;> omega
  calc (∑ i in Finset.range size, rowGet (matrixRow size numberLower 0) i) ≤
      ∑ i in Finset.range size, 1 := Finset.sum_le_sum h1
  _ = size := by simp

theorem internal_sum_le_one (size numberLower : ℕ) (h3 : 3 ≤ size) :
    (internalProbabilities size numberLower).sum ≤ 1 := by
  rw [internal_sum_eq size numberLower h3]
  rw [div_le_one (by positivity)]
  exact_mod_cast row0_sum_le size numberLower

/-- Witness for C4 at the concrete input `size = 3`, `numberLower = 1`. -/
theorem c4_first_stage_characterisation_witness :
    (2 ≤ 3 ∧ 1 ≤ 3) ∧
    ((3 - 1 ≥ 1 →
      ∀ i < 3, rowGet ((calculateMatrix 3 1).getD 0 []) i =
        if 1 ≤ i ∧ i ≤ 3 - 1 then 1 else 0) ∧
    (3 - 1 < 1 →
      ∀ i < 3, rowGet ((calculateMatrix 3 1).getD 0 []) i =
        if i ≤ 1 - 1 then 1 else 0)) :=
  ⟨by decide, c4_first_stage_characterisation 3 1 (by decide) (by decide)⟩

/-- Claim C5 (amended): for `size ≥ 3` and `0 ≤ numberLower ≤ size` every array
access performed by `calculateProbabilities` is in bounds — the instrumented
embedding, in which every access is bounds-checked and any out-of-range index
aborts the whole computation with `none`, completes and returns exactly the
result of the total embedding.  (At `size = 2` this fails: see the
counterexample theorem.) -/
theorem c5_amended_all_accesses_in_bounds_for_size_ge_3 (size numberLower : ℕ)
    (h3 : 3 ≤ size) (hnl : numberLower ≤ size) :
    calculateProbabilitiesM size numberLower =
      some (calculateProbabilities size numberLower) :=
  calculateProbabilitiesM_eq size numberLower h3 hnl

/-- Witness for amended C5 at the concrete input `size = 4`, `numberLower = 2`. -/
theorem c5_amended_all_accesses_in_bounds_for_size_ge_3_witness :
    (3 ≤ 4 ∧ 2 ≤ 4) ∧
    calculateProbabilitiesM 4 2 = some (calculateProbabilities 4 2) :=
  ⟨by decide,
    c5_amended_all_accesses_in_bounds_for_size_ge_3 4 2 (by decide) (by decide)⟩

/-- Claim C6 (amended): for every valid input on which the computation completes,
the mass identity `Σ_i pathCount[0][i] / size` holds for the *pre-accumulation*
per-stage probability vector (its total sum), equivalently for the *first* entry
of the returned cumulative vector — not for the sum over all returned entries,
which double-counts (see the counterexample theorem). -/
theorem c6_amended_mass_conservation_first_entry (size numberLower : ℕ)
    (r : List (ℕ × ℕ)) (h2 : 2 ≤ size) (hnl : numberLower ≤ size)
    (hr : calculateProbabilitiesM size numberLower = some r) :
    (internalProbabilities size numberLower).sum =
      (((matrixRow size numberLower 0).sum : ℕ) : ℚ) / (size : ℚ) ∧
    r.getD 0 (0, 1) =
      ((((((matrixRow size numberLower 0).sum : ℕ) : ℚ) / (size : ℚ)).num.toNat : ℕ),
        (((((matrixRow size numberLower 0).sum : ℕ) : ℚ) / (size : ℚ)).den : ℕ)) := by
  have h3 : 3 ≤ size := by
    by_contra hlt
    rw [smallNone size numberLower (by omega) hnl] at hr
    exact Option.noConfusion hr
  have hrow : (matrixRow size numberLower 0).sum =
      ∑ i in Finset.range size, rowGet (matrixRow size numberLower 0) i := by
    rw [listSum_eq_finset, matrixRow_length size numberLower 0 (by omega), Nat.sub_zero]
  have hmass : (internalProbabilities size numberLower).sum =
      (((matrixRow size numberLower 0).sum : ℕ) : ℚ) / (size : ℚ) := by
    rw [internal_sum_eq size numberLower h3, hrow]
  refine ⟨hmass, ?_⟩
  rw [calculateProbabilitiesM_eq size numberLower h3 hnl] at hr
  have hreq : calculateProbabilities size numberLower = r := Option.some_inj.mp hr
  subst hreq
  have h0 := result_getD size numberLower 0 (by omega)
  rw [List.drop_zero] at h0
  rw [h0, hmass]

/-- Witness for amended C6 at the concrete input `size = 3`, `numberLower = 1`. -/
theorem c6_amended_mass_conservation_first_entry_witness :
    (2 ≤ 3 ∧ 1 ≤ 3 ∧ calculateProbabilitiesM 3 1 = some [(2, 3), (1, 2)]) ∧
    ((internalProbabilities 3 1).sum =
      (((matrixRow 3 1 0).sum : ℕ) : ℚ) / (3 : ℚ) ∧
    ([(2, 3), (1, 2)] : List (ℕ × ℕ)).getD 0 (0, 1) =
      ((((((matrixRow 3 1 0).sum : ℕ) : ℚ) / (3 : ℚ)).num.toNat : ℕ),
        (((((matrixRow 3 1 0).sum : ℕ) : ℚ) / (3 : ℚ)).den : ℕ))) :=
  ⟨⟨by decide, by decide, by with_unfolding_all decide⟩,
    c6_amended_mass_conservation_first_entry 3 1 [(2, 3), (1, 2)] (by decide)
      (by decide) (by with_unfolding_all decide)⟩

/-- Claim C7: for every valid input on which the computation completes, the
returned cumulative probability vector is non-increasing: the fraction at
index `n` is at least the fraction at index `n + 1` for every in-range `n`. -/
theorem c7_cumulative_vector_non_increasing (size numberLower : ℕ)
    (r : List (ℕ × ℕ)) (h2 : 2 ≤ size) (hnl : numberLower ≤ size)
    (hr : calculateProbabilitiesM size numberLower = some r) :
    ∀ n, n + 1 < r.length →
      ((r.getD (n + 1) (0, 1)).1 : ℚ) / ((r.getD (n + 1) (0, 1)).2 : ℚ) ≤
        ((r.getD n (0, 1)).1 : ℚ) / ((r.getD n (0, 1)).2 : ℚ) := by
  have h3 : 3 ≤ size := by
    by_contra hlt
    rw [smallNone size numberLower (by omega) hnl] at hr
    exact Option.noConfusion hr
  rw [calculateProbabilitiesM_eq size numberLower h3 hnl] at hr
  have hreq : calculateProbabilities size numberLower = r := Option.some_inj.mp hr
  subst hreq
  intro n hn
  have hrl : (calculateProbabilities size numberLower).length = size - 1 := by
    rw [calculateProbabilities, convertToNumeratorsAndDenominators, List.length_map,
      resultVector, length_accumulateProbabilities, length_internalProbabilities]
  rw [hrl] at hn
  rw [result_getD size numberLower n (by omega),
    result_getD size numberLower (n + 1) (by omega)]
  dsimp only
  rw [exportFraction _ (dropSum_nonneg size numberLower (n + 1)),
    exportFraction _ (dropSum_nonneg size numberLower n)]
  exact dropSum_mono size numberLower n (by rw [length_internalProbabilities]; omega)

/-- Witness for C7 at the concrete input `size = 3`, `numberLower = 1`, `n = 0`. -/
theorem c7_cumulative_vector_non_increasing_witness :
    (2 ≤ 3 ∧ 1 ≤ 3 ∧ calculateProbabilitiesM 3 1 = some [(2, 3), (1, 2)] ∧
      0 + 1 < ([(2, 3), (1, 2)] : List (ℕ × ℕ)).length) ∧
    ((((([(2, 3), (1, 2)] : List (ℕ × ℕ)).getD (0 + 1) (0, 1)).1 : ℕ) : ℚ) /
        ((([(2, 3), (1, 2)] : List (ℕ × ℕ)).getD (0 + 1) (0, 1)).2 : ℚ) ≤
      (((([(2, 3), (1, 2)] : List (ℕ × ℕ)).getD 0 (0, 1)).1 : ℕ) : ℚ) /
        ((([(2, 3), (1, 2)] : List (ℕ × ℕ)).getD 0 (0, 1)).2 : ℚ)) :=
  ⟨⟨by decide, by decide, by with_unfolding_all decide, by decide⟩,
    c7_cumulative_vector_non_increasing 3 1 [(2, 3), (1, 2)] (by decide) (by decide)
      (by with_unfolding_all decide) 0 (by decide)⟩

/-- Claim C8: for every valid input on which the computation completes, every
exported pair represents a probability in `[0, 1]`: the numerator is at most
the denominator and the represented fraction lies between `0` and `1`. -/
theorem c8_exported_probabilities_in_unit_interval (size numberLower : ℕ)
    (r : List (ℕ × ℕ)) (h2 : 2 ≤ size) (hnl : numberLower ≤ size)
    (hr : calculateProbabilitiesM size numberLower = some r) :
    ∀ p ∈ r, p.1 ≤ p.2 ∧ 0 ≤ (p.1 : ℚ) / (p.2 : ℚ) ∧ (p.1 : ℚ) / (p.2 : ℚ) ≤ 1 := by
  have h3 : 3 ≤ size := by
    by_contra hlt
    rw [smallNone size numberLower (by omega) hnl] at hr
    exact Option.noConfusion hr
  rw [calculateProbabilitiesM_eq size numberLower h3 hnl] at hr
  have hreq : calculateProbabilities size numberLower = r := Option.some_inj.mp hr
  subst hreq
  intro p hp
  rw [calculateProbabilities, convertToNumeratorsAndDenominators] at hp
  obtain ⟨q, hq, rfl⟩ := List.mem_map.mp hp
  rw [resultVector] at hq
  obtain ⟨k, hk, hqe⟩ := List.mem_iff_getElem.mp hq
  have hkl : k < (internalProbabilities size numberLower).length := by
    rw [length_accumulateProbabilities] at hk
    exact hk
  have hgd := accumulateProbabilities_getD (internalProbabilities size numberLower) k hkl
  rw [List.getD_eq_getElem _ 0 hk, hqe] at hgd
  have hq0 : 0 ≤ q := hgd ▸ dropSum_nonneg size numberLower k
  have hq1 : q ≤ 1 := by
    rw [hgd]
    exact le_trans (dropSum_le_total size numberLower k)
      (internal_sum_le_one size numberLower h3)
  have hd0 : 0 < ((q.den : ℕ) : ℚ) := by
    have h := Nat.pos_of_ne_zero q.den_nz
    exact_mod_cast h
  refine ⟨?_, ?_, ?_⟩
  · have hnd : ((q.num : ℤ) : ℚ) = q * ((q.den : ℕ) : ℚ) :=
      (div_eq_iff (ne_of_gt hd0)).mp (Rat.num_div_den q)
    have hnum : ((q.num : ℤ) : ℚ) ≤ ((q.den : ℕ) : ℚ) := by
      calc ((q.num : ℤ) : ℚ) = q * ((q.den : ℕ) : ℚ) := hnd
      _ ≤ 1 * ((q.den : ℕ) : ℚ) := mul_le_mul_of_nonneg_right hq1 (le_of_lt hd0)
      _ = ((q.den : ℕ) : ℚ) := one_mul _
    have hz : q.num ≤ ((q.den : ℕ) : ℤ) := by exact_mod_cast hnum
    show q.num.toNat ≤ q.den
    exact Int.toNat_le.mpr hz
  · dsimp only
    positivity
  · dsimp only
    rw [exportFraction q hq0]
    exact hq1

/-- Witness for C8 at the concrete input `size = 3`, `numberLower = 1`,
`p = (2, 3)`. -/
theorem c8_exported_probabilities_in_unit_interval_witness :
    (2 ≤ 3 ∧ 1 ≤ 3 ∧ calculateProbabilitiesM 3 1 = some [(2, 3), (1, 2)] ∧
      ((2, 3) : ℕ × ℕ) ∈ ([(2, 3), (1, 2)] : List (ℕ × ℕ))) ∧
    (((2, 3) : ℕ × ℕ).1 ≤ ((2, 3) : ℕ × ℕ).2 ∧
      0 ≤ ((((2, 3) : ℕ × ℕ).1 : ℕ) : ℚ) / ((((2, 3) : ℕ × ℕ).2 : ℕ) : ℚ) ∧
      ((((2, 3) : ℕ × ℕ).1 : ℕ) : ℚ) / ((((2, 3) : ℕ × ℕ).2 : ℕ) : ℚ) ≤ 1) :=
  ⟨⟨by decide, by decide, by with_unfolding_all decide, by decide⟩,
    c8_exported_probabilities_in_unit_interval 3 1 [(2, 3), (1, 2)] (by decide)
      (by decide) (by with_unfolding_all decide) (2, 3) (by decide)⟩

end HiLo
